import Mathlib

/-!
# Verification of the DSA-visualizer specification

This file formalizes, in a shallow embedding, the parts of the
dsa-visualizer repository that the specification's claims are about:

* the instrumented Red-Black Tree engine (insert / delete / search with a
  step log).  The engine's implementation file (`src/core/RBTree.ts`) is not
  part of the provided sources — only its callers and type uses are — so the
  engine is modelled from the specification (sections 2–4 and 6–7 of
  `spec.md`); each such definition carries a doc comment starting with
  `Modelled from the spec:`.
* the two `computeTreeLayout` implementations embedded in
  `src/src/dsa-theory/red_black_tree.md`;
* the two `matrixChainOrder` / `buildParenthesisTree` implementations
  (`src/src/core/MatrixChain.ts` and `src/unnamed/part_004`).

JavaScript `number` values are modelled as follows: integer keys and ids are
`Int`/`Nat`, DP cost values are `WithTop Nat` (`⊤` models `Infinity`), and
screen coordinates are `ℚ` (the layout claims only concern the id/edge
structure, which is independent of coordinate arithmetic).
-/

namespace RB

/-- Node colors of the Red-Black tree (spec §3). -/
inductive Color where
  | RED
  | BLACK
deriving DecidableEq, Repr

/-- Modelled from the spec: the tree shape of the Node Store (§2, §3).  A
node has a stable integer id, an integer key, a color and two children; the
shared NIL sentinel is the `nil` constructor.  Parent links of the
implementation are represented implicitly by the zipper contexts below. -/
inductive RBT where
  | nil
  | node (color : Color) (id : Nat) (key : Int) (left right : RBT)
deriving DecidableEq, Repr

/-- Color of a subtree root; the NIL sentinel is BLACK (spec §3 invariant b). -/
def colorOf : RBT → Color
  | .nil => .BLACK
  | .node c _ _ _ _ => c

/-- Recolor the root of a subtree BLACK (used by "force root BLACK"). -/
def blacken : RBT → RBT
  | .nil => .nil
  | .node _ i k l r => .node .BLACK i k l r

/-- Number of real nodes of a tree. -/
def size : RBT → Nat
  | .nil => 0
  | .node _ _ _ l r => size l + size r + 1

/-- In-order key sequence (spec §3 invariant e is that it is strictly
increasing). -/
def inorder : RBT → List Int
  | .nil => []
  | .node _ _ k l r => inorder l ++ k :: inorder r

/-- Invariant (c) of spec §3: no RED node has a RED child. -/
def noRedRed : RBT → Bool
  | .nil => true
  | .node c _ _ l r =>
      (c != .RED || (colorOf l == .BLACK && colorOf r == .BLACK))
        && noRedRed l && noRedRed r

/-- Black height along the left spine (number of BLACK nodes down to NIL). -/
def bh : RBT → Nat
  | .nil => 0
  | .node c _ _ l _ => bh l + (if c = .BLACK then 1 else 0)

/-- Invariant (d) of spec §3: every path from a node to a descendant NIL has
the same number of BLACK nodes. -/
def bhOk : RBT → Bool
  | .nil => true
  | .node _ _ _ l r => bhOk l && bhOk r && (bh l == bh r)

/-- Which side of an ancestor the current hole of a zipper is on. -/
inductive Dir where
  | left
  | right
deriving DecidableEq, Repr

/-- One ancestor frame of a zipper: the ancestor's color, id, key, the side
the hole is on (`dir`) and the other child (`sib`).  This represents the
parent links of the implementation's Node Store. -/
structure Frame where
  dir : Dir
  color : Color
  id : Nat
  key : Int
  sib : RBT
deriving DecidableEq, Repr

/-- Rebuild one ancestor node around a subtree filling the hole. -/
def wrap (f : Frame) (t : RBT) : RBT :=
  match f.dir with
  | .left => .node f.color f.id f.key t f.sib
  | .right => .node f.color f.id f.key f.sib t

/-- Rebuild the whole tree from a subtree and its context (innermost frame
first). -/
def plug (t : RBT) : List Frame → RBT
  | [] => t
  | f :: rest => plug (wrap f t) rest

/-- Modelled from the spec: the comparison descent of insert (§4.3 step 1).
Returns the context of the insertion point, or `none` when the key is
already present (duplicate keys are a recorded no-op, §4.3 / §7c). -/
def descend (key : Int) : RBT → List Frame → Option (List Frame)
  | .nil, ctx => some ctx
  | .node c i k l r, ctx =>
      if key < k then descend key l (⟨.left, c, i, k, r⟩ :: ctx)
      else if k < key then descend key r (⟨.right, c, i, k, l⟩ :: ctx)
      else none

/-- Modelled from the spec: insert-fixup Case A (§4.3 step 2, uncle RED):
recolor parent and uncle BLACK, grandparent RED; the new current node is the
grandparent. -/
def caseA (z : RBT) (p g : Frame) : RBT :=
  let pt : RBT :=
    match p.dir with
    | .left => .node .BLACK p.id p.key z p.sib
    | .right => .node .BLACK p.id p.key p.sib z
  let u := blacken g.sib
  match g.dir with
  | .left => .node .RED g.id g.key pt u
  | .right => .node .RED g.id g.key u pt

/-- Modelled from the spec: insert-fixup Cases B and C (§4.3 step 2, uncle
BLACK): the rotations and recolorings that terminate the loop, combined into
the final subtree that replaces the grandparent.  The `nil` branches are
unreachable (the current node is always a freshly created or recolored RED
node). -/
def rebuild (z : RBT) (p g : Frame) : RBT :=
  match g.dir, p.dir with
  | .left, .left =>
      .node .BLACK p.id p.key z (.node .RED g.id g.key p.sib g.sib)
  | .left, .right =>
      match z with
      | .node _ zi zk zl zr =>
          .node .BLACK zi zk (.node .RED p.id p.key p.sib zl)
            (.node .RED g.id g.key zr g.sib)
      | .nil => plug .nil [p, g]
  | .right, .right =>
      .node .BLACK p.id p.key (.node .RED g.id g.key g.sib p.sib) z
  | .right, .left =>
      match z with
      | .node _ zi zk zl zr =>
          .node .BLACK zi zk (.node .RED g.id g.key g.sib zl)
            (.node .RED p.id p.key zr p.sib)
      | .nil => plug .nil [p, g]

/-- Modelled from the spec: the insert-fixup loop (§4.3 step 2).  `z` is the
current RED node (as a subtree), `ctx` its ancestor context.  The loop runs
while the parent is RED (a RED parent always has a grandparent, since the
root is BLACK); Case A moves two levels up, Cases B/C terminate. -/
def fixup (z : RBT) : List Frame → RBT
  | [] => z
  | [p] => plug z [p]
  | p :: g :: rest' =>
      if p.color = .BLACK then plug z (p :: g :: rest')
      else if colorOf g.sib = .RED then fixup (caseA z p g) rest'
      else plug (rebuild z p g) rest'

/-- Modelled from the spec: the tree-level effect of one insert call (§4.3):
BST-insert the key as a RED leaf, run the fixup loop, force the root BLACK.
A duplicate key leaves the tree unchanged.  `nid` is the id given to a newly
created node. -/
def insertT (t : RBT) (nid : Nat) (key : Int) : RBT :=
  match descend key t [] with
  | none => t
  | some ctx => blacken (fixup (.node .RED nid key .nil .nil) ctx)

/-- Modelled from the spec: a step record before the Step Log assigns its
sequential id and operation id (§3 "Step"): a kind tag, a human-readable
message and a full structural snapshot of the tree at that instant.  In this
pure embedding snapshots are values, so the deep-copy requirement of §5 is
realized by construction. -/
structure PStep where
  type : String
  message : String
  snapshot : RBT
deriving DecidableEq, Repr

/-- Modelled from the spec: the TRAVERSE steps recorded during the insert
comparison descent, ending in a recorded no-op step when the key is already
present (§4.3 step 1, §7c). -/
def descendSteps (key : Int) : RBT → List Frame → List PStep
  | .nil, _ => []
  | .node c i k l r, ctx =>
      let whole := plug (.node c i k l r) ctx
      if key < k then
        ⟨"TRAVERSE", "Compare " ++ toString key ++ " with " ++ toString k ++ ", go left", whole⟩
          :: descendSteps key l (⟨.left, c, i, k, r⟩ :: ctx)
      else if k < key then
        ⟨"TRAVERSE", "Compare " ++ toString key ++ " with " ++ toString k ++ ", go right", whole⟩
          :: descendSteps key r (⟨.right, c, i, k, l⟩ :: ctx)
      else [⟨"NOOP", "Key " ++ toString key ++ " already present", whole⟩]

/-- Modelled from the spec: the RECOLOR / ROTATE steps of insert-fixup Cases
B and C (§4.3 step 2).  Case C records one RECOLOR and one ROTATE step; the
zig-zag first records the Case B ROTATE step. -/
def rebuildSteps (z : RBT) (p g : Frame) (rest : List Frame) : List PStep :=
  match g.dir, p.dir with
  | .left, .left =>
      [⟨"RECOLOR", "Case C: recolor parent BLACK, grandparent RED",
          plug (.node .RED g.id g.key (.node .BLACK p.id p.key z p.sib) g.sib) rest⟩,
       ⟨"ROTATE_RIGHT", "Case C: rotate grandparent right",
          plug (rebuild z p g) rest⟩]
  | .left, .right =>
      match z with
      | .node zc zi zk zl zr =>
          [⟨"ROTATE_LEFT", "Case B: rotate parent left",
              plug (.node g.color g.id g.key
                (.node zc zi zk (.node .RED p.id p.key p.sib zl) zr) g.sib) rest⟩,
           ⟨"RECOLOR", "Case C: recolor parent BLACK, grandparent RED",
              plug (.node .RED g.id g.key
                (.node .BLACK zi zk (.node .RED p.id p.key p.sib zl) zr) g.sib) rest⟩,
           ⟨"ROTATE_RIGHT", "Case C: rotate grandparent right",
              plug (rebuild z p g) rest⟩]
      | .nil => []
  | .right, .right =>
      [⟨"RECOLOR", "Case C: recolor parent BLACK, grandparent RED",
          plug (.node .RED g.id g.key g.sib (.node .BLACK p.id p.key p.sib z)) rest⟩,
       ⟨"ROTATE_LEFT", "Case C: rotate grandparent left",
          plug (rebuild z p g) rest⟩]
  | .right, .left =>
      match z with
      | .node zc zi zk zl zr =>
          [⟨"ROTATE_RIGHT", "Case B: rotate parent right",
              plug (.node g.color g.id g.key g.sib
                (.node zc zi zk zl (.node .RED p.id p.key zr p.sib))) rest⟩,
           ⟨"RECOLOR", "Case C: recolor parent BLACK, grandparent RED",
              plug (.node .RED g.id g.key g.sib
                (.node .BLACK zi zk zl (.node .RED p.id p.key zr p.sib))) rest⟩,
           ⟨"ROTATE_LEFT", "Case C: rotate grandparent left",
              plug (rebuild z p g) rest⟩]
      | .nil => []

/-- Modelled from the spec: the steps recorded by the insert-fixup loop
(§4.3 step 2): one RECOLOR step per Case A iteration, then the Case B/C
steps. -/
def fixupSteps (z : RBT) : List Frame → List PStep
  | [] => []
  | [_] => []
  | p :: g :: rest' =>
      if p.color = .BLACK then []
      else if colorOf g.sib = .RED then
        ⟨"RECOLOR", "Case A: recolor parent and uncle BLACK, grandparent RED",
            plug (caseA z p g) rest'⟩ :: fixupSteps (caseA z p g) rest'
      else rebuildSteps z p g rest'

/-- Modelled from the spec: one insert call at the tree level together with
its recorded steps (§4.3): comparison TRAVERSE steps, the CREATE step (with
the "inserted as ROOT" special case), the fixup steps, and a final RECOLOR
step when forcing the root BLACK actually changes its color.  The third
component tells whether a new node was created. -/
def insertS (t : RBT) (nid : Nat) (key : Int) : RBT × List PStep × Bool :=
  let tsteps := descendSteps key t []
  match descend key t [] with
  | none => (t, tsteps, false)
  | some ctx =>
      let z : RBT := .node .RED nid key .nil .nil
      let createStep : PStep :=
        if t = .nil then ⟨"CREATE", "Add " ++ toString key ++ " as ROOT (temporary RED)", z⟩
        else ⟨"CREATE", "Create RED node " ++ toString key, plug z ctx⟩
      let t' := fixup z ctx
      let rootStep : List PStep :=
        if colorOf t' = .RED then [⟨"RECOLOR", "Force root BLACK", blacken t'⟩] else []
      (blacken t', tsteps ++ createStep :: (fixupSteps z ctx ++ rootStep), true)

/-- Modelled from the spec: the comparison descent of delete and search
(§4.4 step 1, §4.5), returning the found node and its context. -/
def locate (key : Int) : RBT → List Frame → Option (RBT × List Frame)
  | .nil, _ => none
  | .node c i k l r, ctx =>
      if key < k then locate key l (⟨.left, c, i, k, r⟩ :: ctx)
      else if k < key then locate key r (⟨.right, c, i, k, l⟩ :: ctx)
      else some (.node c i k l r, ctx)

/-- Modelled from the spec: the TRAVERSE steps of the delete descent, ending
in a terminal "not found" step when the key is absent (§4.4 step 1). -/
def locateSteps (key : Int) : RBT → List Frame → List PStep
  | .nil, ctx => [⟨"NOT_FOUND", "Key " ++ toString key ++ " not found", plug .nil ctx⟩]
  | .node c i k l r, ctx =>
      let whole := plug (.node c i k l r) ctx
      if key < k then
        ⟨"TRAVERSE", "Compare " ++ toString key ++ " with " ++ toString k ++ ", go left", whole⟩
          :: locateSteps key l (⟨.left, c, i, k, r⟩ :: ctx)
      else if k < key then
        ⟨"TRAVERSE", "Compare " ++ toString key ++ " with " ++ toString k ++ ", go right", whole⟩
          :: locateSteps key r (⟨.right, c, i, k, l⟩ :: ctx)
      else []

/-- Modelled from the spec: in-order minimum of a subtree, with the context
down to it (used to find the successor in delete, §4.4 step 2). -/
def delMin : RBT → List Frame → RBT × List Frame
  | .nil, ctx => (.nil, ctx)
  | .node c i k .nil r, ctx => (.node c i k .nil r, ctx)
  | .node c i k l r, ctx => delMin l (⟨.left, c, i, k, r⟩ :: ctx)

/-- Modelled from the spec: the delete-fixup loop (§4.4 step 3), on the
current subtree `x` and its context, recording RECOLOR / ROTATE steps.  The
loop runs while `x` is not the root and is BLACK; on exit `x` is colored
BLACK (§4.4 step 4, recorded only if it changes).  Case 1 re-enters the case
analysis and Case 3 falls through to Case 4, so the loop is driven by a fuel
argument that over-approximates the number of iterations; no claim depends
on the fixup's result, and on the inputs the engine produces the fuel is
never exhausted. -/
def delFixupS : Nat → RBT → List Frame → RBT × List PStep
  | 0, x, ctx => (plug x ctx, [])
  | fuel + 1, x, ctx =>
      match ctx with
      | [] =>
          (blacken x,
           if colorOf x = .RED then [⟨"RECOLOR", "Color node BLACK", blacken x⟩] else [])
      | f :: rest =>
          if colorOf x = .RED then
            (plug (blacken x) ctx,
             [⟨"RECOLOR", "Color node BLACK", plug (blacken x) ctx⟩])
          else
            match f.dir with
            | .left =>
                match f.sib with
                | .node .RED wi wk wl wr =>
                    let ctx2 : List Frame :=
                      ⟨.left, .RED, f.id, f.key, wl⟩ :: ⟨.left, .BLACK, wi, wk, wr⟩ :: rest
                    let r := delFixupS fuel x ctx2
                    (r.1,
                     ⟨"RECOLOR", "Case 1: recolor sibling BLACK, parent RED",
                         plug x (⟨.left, .RED, f.id, f.key, .node .BLACK wi wk wl wr⟩ :: rest)⟩
                       :: ⟨"ROTATE_LEFT", "Case 1: rotate parent left", plug x ctx2⟩ :: r.2)
                | .nil =>
                    let x' : RBT := .node f.color f.id f.key x .nil
                    let r := delFixupS fuel x' rest
                    (r.1,
                     ⟨"RECOLOR", "Case 2: recolor sibling RED, move up", plug x' rest⟩ :: r.2)
                | .node .BLACK wi wk wl wr =>
                    match wr with
                    | .node .RED qi qk ql qr =>
                        let res : RBT :=
                          .node f.color wi wk (.node .BLACK f.id f.key x wl)
                            (.node .BLACK qi qk ql qr)
                        let fin := plug res rest
                        (blacken fin,
                         [⟨"RECOLOR", "Case 4: recolor sibling, parent, far nephew",
                             plug x (⟨.left, .BLACK, f.id, f.key,
                               .node f.color wi wk wl (.node .BLACK qi qk ql qr)⟩ :: rest)⟩,
                          ⟨"ROTATE_LEFT", "Case 4: rotate parent left", fin⟩]
                           ++ if colorOf fin = .RED then
                                [⟨"RECOLOR", "Color root BLACK", blacken fin⟩] else [])
                    | _ =>
                        match wl with
                        | .node .RED ni nk nl nr =>
                            let w' : RBT := .node .BLACK ni nk nl (.node .RED wi wk nr wr)
                            let r := delFixupS fuel x (⟨.left, f.color, f.id, f.key, w'⟩ :: rest)
                            (r.1,
                             ⟨"RECOLOR", "Case 3: recolor near nephew BLACK, sibling RED",
                                 plug x (⟨.left, f.color, f.id, f.key,
                                   .node .RED wi wk (.node .BLACK ni nk nl nr) wr⟩ :: rest)⟩
                               :: ⟨"ROTATE_RIGHT", "Case 3: rotate sibling right",
                                    plug x (⟨.left, f.color, f.id, f.key, w'⟩ :: rest)⟩ :: r.2)
                        | _ =>
                            let x' : RBT := .node f.color f.id f.key x (.node .RED wi wk wl wr)
                            let r := delFixupS fuel x' rest
                            (r.1,
                             ⟨"RECOLOR", "Case 2: recolor sibling RED, move up",
                                 plug x' rest⟩ :: r.2)
            | .right =>
                match f.sib with
                | .node .RED wi wk wl wr =>
                    let ctx2 : List Frame :=
                      ⟨.right, .RED, f.id, f.key, wr⟩ :: ⟨.right, .BLACK, wi, wk, wl⟩ :: rest
                    let r := delFixupS fuel x ctx2
                    (r.1,
                     ⟨"RECOLOR", "Case 1: recolor sibling BLACK, parent RED",
                         plug x (⟨.right, .RED, f.id, f.key, .node .BLACK wi wk wl wr⟩ :: rest)⟩
                       :: ⟨"ROTATE_RIGHT", "Case 1: rotate parent right", plug x ctx2⟩ :: r.2)
                | .nil =>
                    let x' : RBT := .node f.color f.id f.key .nil x
                    let r := delFixupS fuel x' rest
                    (r.1,
                     ⟨"RECOLOR", "Case 2: recolor sibling RED, move up", plug x' rest⟩ :: r.2)
                | .node .BLACK wi wk wl wr =>
                    match wl with
                    | .node .RED qi qk ql qr =>
                        let res : RBT :=
                          .node f.color wi wk (.node .BLACK qi qk ql qr)
                            (.node .BLACK f.id f.key wr x)
                        let fin := plug res rest
                        (blacken fin,
                         [⟨"RECOLOR", "Case 4: recolor sibling, parent, far nephew",
                             plug x (⟨.right, .BLACK, f.id, f.key,
                               .node f.color wi wk (.node .BLACK qi qk ql qr) wr⟩ :: rest)⟩,
                          ⟨"ROTATE_RIGHT", "Case 4: rotate parent right", fin⟩]
                           ++ if colorOf fin = .RED then
                                [⟨"RECOLOR", "Color root BLACK", blacken fin⟩] else [])
                    | _ =>
                        match wr with
                        | .node .RED ni nk nl nr =>
                            let w' : RBT := .node .BLACK ni nk (.node .RED wi wk wl nl) nr
                            let r := delFixupS fuel x (⟨.right, f.color, f.id, f.key, w'⟩ :: rest)
                            (r.1,
                             ⟨"RECOLOR", "Case 3: recolor near nephew BLACK, sibling RED",
                                 plug x (⟨.right, f.color, f.id, f.key,
                                   .node .RED wi wk wl (.node .BLACK ni nk nl nr)⟩ :: rest)⟩
                               :: ⟨"ROTATE_LEFT", "Case 3: rotate sibling left",
                                    plug x (⟨.right, f.color, f.id, f.key, w'⟩ :: rest)⟩ :: r.2)
                        | _ =>
                            let x' : RBT := .node f.color f.id f.key (.node .RED wi wk wl wr) x
                            let r := delFixupS fuel x' rest
                            (r.1,
                             ⟨"RECOLOR", "Case 2: recolor sibling RED, move up",
                                 plug x' rest⟩ :: r.2)

/-- Modelled from the spec: one delete call at the tree level with its
recorded steps (§4.4): locate the node (absence is a terminal not-found step
and a no-op), standard BST deletion with a REPLACE step for the two-children
case, then delete-fixup when the physically removed node was BLACK. -/
def deleteS (t : RBT) (key : Int) : RBT × List PStep :=
  let lsteps := locateSteps key t []
  match locate key t [] with
  | none => (t, lsteps)
  | some (target, ctx) =>
      match target with
      | .nil => (t, lsteps)
      | .node c _i k l r =>
          if l = .nil then
            let rem : PStep := ⟨"REMOVE", "Remove " ++ toString k, plug r ctx⟩
            if c = .BLACK then
              let res := delFixupS (4 * size t + 8) r ctx
              (res.1, lsteps ++ rem :: res.2)
            else (plug r ctx, lsteps ++ [rem])
          else if r = .nil then
            let rem : PStep := ⟨"REMOVE", "Remove " ++ toString k, plug l ctx⟩
            if c = .BLACK then
              let res := delFixupS (4 * size t + 8) l ctx
              (res.1, lsteps ++ rem :: res.2)
            else (plug l ctx, lsteps ++ [rem])
          else
            match delMin r [] with
            | (.node sc si sk _ sr, sctx) =>
                let ctx' := sctx ++ ⟨.right, c, si, sk, l⟩ :: ctx
                let rep : PStep :=
                  ⟨"REPLACE", "Replace " ++ toString k ++ " with successor " ++ toString sk,
                     plug sr ctx'⟩
                if sc = .BLACK then
                  let res := delFixupS (4 * size t + 8) sr ctx'
                  (res.1, lsteps ++ rep :: res.2)
                else (plug sr ctx', lsteps ++ [rep])
            | (.nil, _) => (t, lsteps)

/-- Modelled from the spec: one search call (§4.5): pure descent with a
TRAVERSE step per comparison and a terminal FOUND / NOT_FOUND step; the tree
is never mutated. -/
def searchS (t : RBT) (key : Int) : List PStep :=
  go t []
where
  go : RBT → List Frame → List PStep
    | .nil, ctx => [⟨"NOT_FOUND", "Key " ++ toString key ++ " not found", plug .nil ctx⟩]
    | .node c i k l r, ctx =>
        let whole := plug (.node c i k l r) ctx
        if key < k then
          ⟨"TRAVERSE", "Compare " ++ toString key ++ " with " ++ toString k, whole⟩
            :: go l (⟨.left, c, i, k, r⟩ :: ctx)
        else if k < key then
          ⟨"TRAVERSE", "Compare " ++ toString key ++ " with " ++ toString k, whole⟩
            :: go r (⟨.right, c, i, k, l⟩ :: ctx)
        else [⟨"FOUND", "Key " ++ toString key ++ " found", whole⟩]

/-- Modelled from the spec: a Step Log entry (§3 "Step"): sequential 1-based
id, kind tag, message, deep snapshot and owning operation id. -/
structure Step where
  id : Nat
  type : String
  message : String
  treeSnapshot : RBT
  operationId : Nat
deriving DecidableEq, Repr

/-- Modelled from the spec: an Operation of the Operation Grouper (§3):
an id, a type tag and the keys involved. -/
structure Operation where
  id : Nat
  type : String
  keys : List Int
deriving DecidableEq, Repr

/-- Modelled from the spec: the mutable state of one tree engine (§2, §3
"Tree state"): the root, the append-only Step Log, the Operation list, the
id counters and the currently open operation. -/
structure EngineState where
  root : RBT
  steps : List Step
  operations : List Operation
  currentOp : Option Nat
  nextStepId : Nat
  nextNodeId : Nat
  nextOpId : Nat
deriving DecidableEq, Repr

/-- Modelled from the spec: a freshly constructed engine: empty tree, empty
log, all counters at their initial value 1. -/
def emptyEngine : EngineState :=
  { root := .nil, steps := [], operations := [], currentOp := none
    nextStepId := 1, nextNodeId := 1, nextOpId := 1 }

/-- Assign sequential step ids and the owning operation id to a list of
pending step records (§4.2 `record`). -/
def mkSteps (startId opId : Nat) (ps : List PStep) : List Step :=
  ps.enum.map fun e => ⟨startId + e.1, e.2.type, e.2.message, e.2.snapshot, opId⟩

/-- Modelled from the spec: use the currently open operation, auto-opening
an implicit singleton operation when none is open (§4.2). -/
def ensureOp (s : EngineState) (ty : String) (keys : List Int) : Nat × EngineState :=
  match s.currentOp with
  | some o => (o, s)
  | none =>
      (s.nextOpId,
       { s with operations := s.operations ++ [⟨s.nextOpId, ty, keys⟩],
                nextOpId := s.nextOpId + 1 })

/-- Modelled from the spec: `startOperation` (§4.2): opens a new operation
context, replacing any active one. -/
def startOperation (s : EngineState) (ty : String) (keys : List Int) : EngineState :=
  { s with operations := s.operations ++ [⟨s.nextOpId, ty, keys⟩],
           currentOp := some s.nextOpId, nextOpId := s.nextOpId + 1 }

/-- Modelled from the spec: `endOperation` (§4.2): closes the active
context. -/
def endOperation (s : EngineState) : EngineState :=
  { s with currentOp := none }

/-- Modelled from the spec: the public `insert(key) -> Step[]` operation
(§4.3, §6): runs the instrumented insert, appends the new steps to the log
and returns exactly the newly appended steps. -/
def insertOp (s : EngineState) (key : Int) : EngineState × List Step :=
  let os := ensureOp s "INSERT" [key]
  let res := insertS os.2.root os.2.nextNodeId key
  let new := mkSteps os.2.nextStepId os.1 res.2.1
  ({ os.2 with root := res.1, steps := os.2.steps ++ new,
               nextStepId := os.2.nextStepId + new.length,
               nextNodeId := os.2.nextNodeId + (if res.2.2 then 1 else 0) }, new)

/-- Modelled from the spec: the public `delete(key) -> Step[]` operation
(§4.4, §6). -/
def deleteOp (s : EngineState) (key : Int) : EngineState × List Step :=
  let os := ensureOp s "DELETE" [key]
  let res := deleteS os.2.root key
  let new := mkSteps os.2.nextStepId os.1 res.2
  ({ os.2 with root := res.1, steps := os.2.steps ++ new,
               nextStepId := os.2.nextStepId + new.length }, new)

/-- Modelled from the spec: the public `search(key) -> Step[]` operation
(§4.5, §6): never mutates the tree. -/
def searchOp (s : EngineState) (key : Int) : EngineState × List Step :=
  let os := ensureOp s "SEARCH" [key]
  let new := mkSteps os.2.nextStepId os.1 (searchS os.2.root key)
  ({ os.2 with steps := os.2.steps ++ new,
               nextStepId := os.2.nextStepId + new.length }, new)

/-- Modelled from the spec: `reset()` (§4.2, §6): clears tree, log,
operations and counters. -/
def reset (_s : EngineState) : EngineState := emptyEngine

/-- The engine state after a sequence of insert calls starting from a fresh
engine. -/
def insertRun (ks : List Int) : EngineState :=
  ks.foldl (fun s k => (insertOp s k).1) emptyEngine

/-- The keys a context contributes to the left of its hole in in-order
(frames whose hole is a right child contribute their sibling and key). -/
def ctxL : List Frame → List Int
  | [] => []
  | f :: rest =>
      match f.dir with
      | .left => ctxL rest
      | .right => ctxL rest ++ (inorder f.sib ++ [f.key])

/-- The keys a context contributes to the right of its hole in in-order. -/
def ctxR : List Frame → List Int
  | [] => []
  | f :: rest =>
      match f.dir with
      | .left => (f.key :: inorder f.sib) ++ ctxR rest
      | .right => ctxR rest

/-- The color of the innermost ancestor of a context; the empty context's
parent is the BLACK NIL sentinel. -/
def colorHead : List Frame → Color
  | [] => .BLACK
  | f :: _ => f.color

/-- Red-Black validity of a context around a hole of black height `n`:
every sibling is a valid RB subtree of black height `n`, and a RED ancestor
has a BLACK sibling and a BLACK parent. -/
def CtxInv : List Frame → Nat → Prop
  | [], _ => True
  | f :: rest, n =>
      noRedRed f.sib = true ∧ bhOk f.sib = true ∧ bh f.sib = n
        ∧ (f.color = .RED → colorOf f.sib = .BLACK ∧ colorHead rest = .BLACK)
        ∧ CtxInv rest (n + (if f.color = .BLACK then 1 else 0))

/-- The outermost frame of a context (the tree root), when any, is BLACK. -/
def rootOK (ctx : List Frame) : Prop :=
  ∀ f, ctx.getLast? = some f → f.color = .BLACK

/-- The five Red-Black invariants of spec §3 for a live tree: (a) the root
is BLACK or the tree is empty, (b) NIL is BLACK, (c) no RED node has a RED
child, (d) equal black count on every path to a descendant NIL, (e) the
in-order key sequence is strictly increasing. -/
def rbInvariants (t : RBT) : Prop :=
  (t = .nil ∨ colorOf t = .BLACK)
    ∧ colorOf .nil = .BLACK
    ∧ noRedRed t = true
    ∧ bhOk t = true
    ∧ List.Sorted (· < ·) (inorder t)

end RB

namespace TreeLayout

/-- A tree snapshot as consumed by the layout functions (the `RBNode` /
`TreeNode` input types of the two `computeTreeLayout` versions in
`src/src/dsa-theory/red_black_tree.md`): id, value, color, an optional
parent id and the two children; `null` is an absent child.  The second
version has no `parentId` field and simply ignores it here. -/
inductive STree where
  | null
  | node (id : Int) (value : Int) (color : RB.Color) (parentId : Option Int)
      (left right : STree)
deriving DecidableEq, Repr

/-- The id of a subtree root, `none` for `null` (the source's
`n.left ? n.left.id : null`). -/
def childId : STree → Option Int
  | .null => none
  | .node i _ _ _ _ _ => some i

/-- The `(id, leftId, rightId)` triples of the real nodes of a snapshot, in
the pre-order the first layout version visits them. -/
def snapList : STree → List (Int × Option Int × Option Int)
  | .null => []
  | .node i _ _ _ l r => (i, childId l, childId r) :: (snapList l ++ snapList r)

/-- The ids of the real nodes of a snapshot. -/
def snapIds (t : STree) : List Int := (snapList t).map (fun e => e.1)

/-- A node of the first layout version (`LayoutNode` with `parentId` /
`leftId` / `rightId`); `value` is `none` for the NaN value of the synthetic
NIL placeholder entries. -/
structure LayoutNode1 where
  id : Int
  value : Option Int
  color : RB.Color
  x : ℚ
  y : ℚ
  parentId : Option Int
  leftId : Option Int
  rightId : Option Int
deriving DecidableEq, Repr

/-- An edge of a layout; `src` / `dst` embed the source's `from` / `to`
fields (`from` is a reserved word in Lean). -/
structure LEdge where
  src : Int
  dst : Int
deriving DecidableEq, Repr

/-- The result record of the first layout version. -/
structure Layout1 where
  nodes : List LayoutNode1
  edges : List LEdge
  width : ℚ
  height : ℚ
deriving DecidableEq, Repr

/-- `countNodes` of the first layout version: NIL counts as 1. -/
def countNodes1 : STree → Nat
  | .null => 1
  | .node _ _ _ _ l r => countNodes1 l + countNodes1 r

/-- `traverse` of the first layout version: subtree-width placement, pushing
a synthetic NIL entry (id `-(parentId*10 + 1 or 2)`) for each absent child
of a real parent. -/
def traverse1 : STree → Nat → ℚ → ℚ → Option Int → Bool → List LayoutNode1
  | .null, depth, lb, rb, parentId, isLeft =>
      match parentId with
      | none => []
      | some p =>
          [⟨-(p * 10 + (if isLeft then 1 else 2)), none, .BLACK,
             (lb + rb) / 2, 50 + (depth : ℚ) * 60, some p, none, none⟩]
  | .node i v c pid l r, depth, lb, rb, _, _ =>
      let midX := (lb + rb) / 2
      let lc := countNodes1 l
      let rc := countNodes1 r
      let frac : ℚ := if 0 < lc + rc then (lc : ℚ) / ((lc + rc : Nat) : ℚ) else 1 / 2
      let splitX := lb + (rb - lb) * frac
      ⟨i, some v, c, midX, 50 + (depth : ℚ) * 60, pid, childId l, childId r⟩
        :: (traverse1 l (depth + 1) lb splitX (some i) true
             ++ traverse1 r (depth + 1) splitX rb (some i) false)

/-- JavaScript truthiness of a possibly-null id (`if (n.leftId)`):
`null` and `0` are falsy. -/
def truthy : Option Int → Option Int
  | none => none
  | some v => if v = 0 then none else some v

/-- Membership of an id in the node list (the source's `nodeMap.has`). -/
def hasId (ns : List LayoutNode1) (i : Int) : Bool :=
  ns.any fun n => n.id == i

/-- The edges the first layout version generates for one node list entry:
for each child slot, an edge to the (truthy) child id, otherwise an edge to
the synthetic NIL entry when present. -/
def edgesFor1 (ns : List LayoutNode1) (n : LayoutNode1) : List LEdge :=
  if 0 < n.id then
    (match truthy n.leftId with
     | some c => [⟨n.id, c⟩]
     | none => if hasId ns (-(n.id * 10 + 1)) then [⟨n.id, -(n.id * 10 + 1)⟩] else [])
      ++
    (match truthy n.rightId with
     | some c => [⟨n.id, c⟩]
     | none => if hasId ns (-(n.id * 10 + 2)) then [⟨n.id, -(n.id * 10 + 2)⟩] else [])
  else []

/-- The first `computeTreeLayout` version of
`src/src/dsa-theory/red_black_tree.md` (subtree-width layout with NIL
placeholder nodes). -/
def computeTreeLayout1 (root : STree) (width height : ℚ) : Layout1 :=
  match root with
  | .null => ⟨[], [], width, height⟩
  | _ =>
      let nodes := traverse1 root 0 40 (width - 40) none false
      ⟨nodes, (nodes.map (edgesFor1 nodes)).flatten, width, height⟩

/-- A node of the second layout version. -/
structure LayoutNode2 where
  id : Int
  value : Int
  color : RB.Color
  x : ℚ
  y : ℚ
deriving DecidableEq, Repr

/-- The result record of the second layout version. -/
structure Layout2 where
  nodes : List LayoutNode2
  edges : List LEdge
deriving DecidableEq, Repr

/-- `getDepth` of the second layout version. -/
def getDepth : STree → Nat
  | .null => 0
  | .node _ _ _ _ l r => 1 + max (getDepth l) (getDepth r)

/-- `countNodes` of the second layout version: real nodes only. -/
def countNodes2 : STree → Nat
  | .null => 0
  | .node _ _ _ _ l r => 1 + countNodes2 l + countNodes2 r

/-- `traverse` of the second layout version: in-order placement; the running
in-order index is threaded explicitly (it is incremented before use, so the
first visited node gets index 1).  Edges go to real children only.  The
`nodePositions` map of the source is write-only and omitted. -/
def traverse2 (vs hs : ℚ) : STree → Nat → Nat → Nat × List LayoutNode2 × List LEdge
  | .null, _, idx => (idx, [], [])
  | .node i v c _ l r, level, idx =>
      let resL := traverse2 vs hs l (level + 1) idx
      let idx2 := resL.1 + 1
      let me : LayoutNode2 := ⟨i, v, c, (idx2 : ℚ) * hs, ((level + 1 : Nat) : ℚ) * vs⟩
      let myEdges : List LEdge :=
        (match childId l with | some li => [⟨i, li⟩] | none => [])
          ++ (match childId r with | some ri => [⟨i, ri⟩] | none => [])
      let resR := traverse2 vs hs r (level + 1) idx2
      (resR.1, resL.2.1 ++ me :: resR.2.1, resL.2.2 ++ myEdges ++ resR.2.2)

/-- The second `computeTreeLayout` version of
`src/src/dsa-theory/red_black_tree.md` (in-order layout, edges to real
children only). -/
def computeTreeLayout2 (root : STree) (width height : ℚ) : Layout2 :=
  match root with
  | .null => ⟨[], []⟩
  | _ =>
      let vs := height / ((getDepth root + 1 : Nat) : ℚ)
      let hs := width / ((countNodes2 root + 1 : Nat) : ℚ)
      let res := traverse2 vs hs root 0 0
      ⟨res.2.1, res.2.2⟩

/-- The property claimed of the layout's edges: every edge goes from a
snapshot node to one of its real children, and each parent–real-child pair
of the snapshot produces exactly one edge. -/
def edgesAreParentChild (t : STree) (edges : List LEdge) : Prop :=
  (∀ e ∈ edges, ∃ pr ∈ snapList t, pr.1 = e.src ∧
      (pr.2.1 = some e.dst ∨ pr.2.2 = some e.dst))
    ∧ ∀ pr ∈ snapList t, ∀ c : Int, (pr.2.1 = some c ∨ pr.2.2 = some c) →
        edges.countP (fun e => e.src == pr.1 && e.dst == c) = 1

/-- The weakening of `edgesAreParentChild` that the first layout version
actually satisfies: an edge may also lead from a node to the synthetic NIL
placeholder id `-(id*10 + 1)` / `-(id*10 + 2)` standing for its absent left
/ right child; every parent–real-child pair still produces exactly one
edge. -/
def edgesAreParentChildOrNil (t : STree) (edges : List LEdge) : Prop :=
  (∀ e ∈ edges, ∃ pr ∈ snapList t, pr.1 = e.src ∧
      (pr.2.1 = some e.dst ∨ pr.2.2 = some e.dst
        ∨ (pr.2.1 = none ∧ e.dst = -(e.src * 10 + 1))
        ∨ (pr.2.2 = none ∧ e.dst = -(e.src * 10 + 2))))
    ∧ ∀ pr ∈ snapList t, ∀ c : Int, (pr.2.1 = some c ∨ pr.2.2 = some c) →
        edges.countP (fun e => e.src == pr.1 && e.dst == c) = 1

end TreeLayout

namespace MC

/-- A DP cost table; `⊤` models the JavaScript `Infinity` initial value of
`m[i][j]`. -/
abbrev Tbl := Nat → Nat → WithTop Nat

/-- A split table (`s`), holding chosen split points. -/
abbrev STbl := Nat → Nat → Nat

/-- Write one cell of a table. -/
def upd {α : Type} (t : Nat → Nat → α) (i j : Nat) (v : α) : Nat → Nat → α :=
  fun a b => if a = i then (if b = j then v else t a b) else t a b

/-- `p[x]` with JavaScript-style indexing; all accesses of the DP are within
bounds, so the default is irrelevant. -/
def pd (p : List Nat) (x : Nat) : Nat := p.getD x 0

/-- The innermost loop body of `matrixChainOrder`: try split point `k` for
the chain `(i, j)` and keep it when its cost strictly improves `m[i][j]`. -/
def kStep (p : List Nat) (i j : Nat) (ms : Tbl × STbl) (k : Nat) : Tbl × STbl :=
  let cost : WithTop Nat :=
    ms.1 i k + ms.1 (k + 1) j + ((pd p (i - 1) * pd p k * pd p j : Nat) : WithTop Nat)
  if cost < ms.1 i j then (upd ms.1 i j cost, upd ms.2 i j k) else ms

/-- One chain `(i, j := i + l - 1)` of `matrixChainOrder`: set `m[i][j]` to
`Infinity`, then fold over the split points `k ∈ [i, j)`. -/
def ijStep (p : List Nat) (l : Nat) (ms : Tbl × STbl) (i : Nat) : Tbl × STbl :=
  let j := i + l - 1
  (List.range' i (j - i)).foldl (kStep p i j) (upd ms.1 i j ⊤, ms.2)

/-- One chain length `l` of `matrixChainOrder`: fold over the start indices
`i ∈ [1, n - l + 1]`. -/
def lStep (p : List Nat) (n : Nat) (ms : Tbl × STbl) (l : Nat) : Tbl × STbl :=
  (List.range' 1 (n - l + 1)).foldl (ijStep p l) ms

/-- The nested loops of `matrixChainOrder`: chain lengths `l ∈ [2, n]`. -/
def mainLoops (p : List Nat) (n : Nat) (ms : Tbl × STbl) : Tbl × STbl :=
  (List.range' 2 (n - 1)).foldl (lStep p n) ms

/-- The result record of `matrixChainOrder` in `src/src/core/MatrixChain.ts`. -/
structure MatrixChainResult where
  m : Tbl
  s : STbl
  minCost : WithTop Nat

/-- `matrixChainOrder` of `src/src/core/MatrixChain.ts`: both tables start
zero-filled (`Array(n+1).fill(0)`), the diagonal is never written, and
`minCost` is `m[1][n]` when `n > 0`. -/
def matrixChainOrder (p : List Nat) : MatrixChainResult :=
  let n := p.length - 1
  let ms := mainLoops p n ((fun _ _ => 0), (fun _ _ => 0))
  { m := ms.1, s := ms.2, minCost := if 0 < n then ms.1 1 n else 0 }

/-- The explicit `for (i) m[i][i] = 0` diagonal loop of the
`src/unnamed/part_004` version (a no-op on the zero-initialized table). -/
def diagLoop (n : Nat) (m : Tbl) : Tbl :=
  (List.range' 1 n).foldl (fun t i => upd t i i 0) m

/-- The result record of `matrixChainOrder` in `src/unnamed/part_004`. -/
structure MSResult where
  m : Tbl
  s : STbl

/-- `matrixChainOrder` of `src/unnamed/part_004`: identical loops, with an
explicit diagonal-zeroing pass and no `minCost` field. -/
def matrixChainOrder004 (p : List Nat) : MSResult :=
  let n := p.length - 1
  let ms := mainLoops p n (diagLoop n (fun _ _ => 0), (fun _ _ => 0))
  { m := ms.1, s := ms.2 }

/-- The candidate costs `m[i][k] + m[k+1][j] + p[i-1]*p[k]*p[j]` for
`k ∈ [i, j)`, read off a given `m` table. -/
def cands (m : Tbl) (p : List Nat) (i j : Nat) : List (WithTop Nat) :=
  (List.range' i (j - i)).map fun k =>
    m i k + m (k + 1) j + ((pd p (i - 1) * pd p k * pd p j : Nat) : WithTop Nat)

/-- The matrix-chain recurrence as a recursive function: `0` on the
diagonal, the minimum candidate cost for `i < j`. -/
def mSpec (p : List Nat) (i j : Nat) : WithTop Nat :=
  if _h : i < j then
    (((List.range' i (j - i)).attach).map fun x =>
        mSpec p i x.1 + mSpec p (x.1 + 1) j
          + ((pd p (i - 1) * pd p x.1 * pd p j : Nat) : WithTop Nat)).foldl min ⊤
  else 0
termination_by j - i
decreasing_by
  · have hx := x.2
    rw [List.mem_range'] at hx
    omega
  · have hx := x.2
    rw [List.mem_range'] at hx
    omega

/-- One DP cell `(i, j)` fully computed: its `m` value satisfies the
recurrence (equals `mSpec`) and its `s` value is an in-range split point
attaining it. -/
def cellDone (p : List Nat) (r : Tbl × STbl) (i j : Nat) : Prop :=
  r.1 i j = mSpec p i j
    ∧ (i ≤ r.2 i j ∧ r.2 i j < j)
    ∧ r.1 i j = mSpec p i (r.2 i j) + mSpec p (r.2 i j + 1) j
        + ((pd p (i - 1) * pd p (r.2 i j) * pd p j : Nat) : WithTop Nat)

/-- Loop invariant of the DP: every chain of length at most `l` inside the
triangle `1 ≤ i ≤ j ≤ n` is fully computed. -/
def Done (p : List Nat) (n l : Nat) (ms : Tbl × STbl) : Prop :=
  (∀ i j, 1 ≤ i → i ≤ j → j ≤ n → j + 1 ≤ i + l → ms.1 i j = mSpec p i j)
    ∧ (∀ i j, 1 ≤ i → i < j → j ≤ n → j + 1 ≤ i + l → cellDone p ms i j)

/-- The parenthesization tree node of `src/src/core/MatrixChain.ts`
(numeric ids). -/
inductive TreeNodeTs where
  | mk (id : Nat) (label : String) (left right : Option TreeNodeTs)

/-- The parenthesization tree node of `src/unnamed/part_004` (string ids
from the module-level counter). -/
inductive TreeNode004 where
  | mk (id : String) (label : String) (left right : Option TreeNode004)

/-- Id of a `MatrixChain.ts` tree node. -/
def TreeNodeTs.nid : TreeNodeTs → Nat
  | .mk i _ _ _ => i

/-- Id of a `part_004` tree node. -/
def TreeNode004.nid : TreeNode004 → String
  | .mk i _ _ _ => i

/-- The id-erased shape of a `part_004` tree (label plus children). -/
inductive LabelTree where
  | mk (label : String) (left right : Option LabelTree)

/-- Erase the ids of a `part_004` tree. -/
def stripIds : TreeNode004 → LabelTree
  | .mk _ lab l r =>
      .mk lab
        (match l with | none => none | some x => some (stripIds x))
        (match r with | none => none | some x => some (stripIds x))

/-- `buildParenthesisTree` of `src/src/core/MatrixChain.ts`, with the
per-call id counter threaded explicitly (the source's `idCounter` object;
object-literal fields evaluate in order, so a node takes the current id
before its children are built).  On a malformed split table the source
recurses forever, which the `fuel` argument makes total; `none` means the
fuel ran out. -/
def buildTs (s : STbl) : Nat → Nat → Nat → Nat → Option TreeNodeTs × Nat
  | 0, _, _, ctr => (none, ctr)
  | fuel + 1, i, j, ctr =>
      if i = j then (some (.mk ctr ("A" ++ toString i) none none), ctr + 1)
      else
        let k := s i j
        let resL := buildTs s fuel i k (ctr + 1)
        let resR := buildTs s fuel (k + 1) j resL.2
        (some (.mk ctr ("(" ++ toString i ++ "," ++ toString j ++ ")") resL.1 resR.1),
         resR.2)

/-- `buildParenthesisTree` of `src/unnamed/part_004`: ids come from the
module-level `_nodeCounter` (pre-incremented, so the first id is `"n1"`),
whose value is the threaded `ctr` argument; children are built before the
parent's id is taken. -/
def build004 (s : STbl) : Nat → Nat → Nat → Nat → Option TreeNode004 × Nat
  | 0, _, _, ctr => (none, ctr)
  | fuel + 1, i, j, ctr =>
      if i = j then (some (.mk ("n" ++ toString (ctr + 1)) ("A" ++ toString i) none none),
                     ctr + 1)
      else
        let k := s i j
        let resL := build004 s fuel i k ctr
        let resR := build004 s fuel (k + 1) j resL.2
        (some (.mk ("n" ++ toString (resR.2 + 1))
                 ("(" ++ toString i ++ "-" ++ toString j ++ ")") resL.1 resR.1),
         resR.2 + 1)

/-- A call of the `MatrixChain.ts` `buildParenthesisTree` as seen from the
module: the module has no mutable state, and a call with the default
argument starts a fresh local counter at 0, so the (irrelevant) module state
`st` passes through unchanged. -/
def callTs (st : Nat) (s : STbl) (fuel i j : Nat) : (Option TreeNodeTs × Nat) × Nat :=
  (buildTs s fuel i j 0, st)

/-- A call of the `part_004` `buildParenthesisTree` as seen from the module:
the module-level `_nodeCounter` `st` is read and its advanced value is the
new module state. -/
def call004 (st : Nat) (s : STbl) (fuel i j : Nat) : Option TreeNode004 × Nat :=
  build004 s fuel i j st

/-- The all-zero split table, the simplest concrete input. -/
def zeroS : STbl := fun _ _ => 0

end MC

/-! ## Theorems -/

namespace RB

/-- C2: starting from an empty tree, `insert(10); insert(20); insert(30)`
performs exactly one rotation, a left rotation, and yields the tree with
root 20 BLACK, left child 10 RED and right child 30 RED. -/
theorem insert_10_20_30_single_left_rotation :
    ((insertRun [10, 20, 30]).steps.filter
        (fun st => st.type == "ROTATE_LEFT" || st.type == "ROTATE_RIGHT")).map
        (fun st => st.type) = ["ROTATE_LEFT"]
      ∧ (insertRun [10, 20, 30]).root =
          .node .BLACK 2 20 (.node .RED 1 10 .nil .nil) (.node .RED 3 30 .nil .nil) := by
  constructor <;> rfl

/-- C3: the Step Log is append-only: any further insert, delete or search
leaves every previously recorded step — including its tree snapshot —
unchanged (the old log is literally a prefix of the new one; snapshots are
values in this embedding, realizing the copy-on-record rule of §5). -/
theorem step_log_append_only (s : EngineState) (key : Int) :
    (insertOp s key).1.steps.take s.steps.length = s.steps
      ∧ (deleteOp s key).1.steps.take s.steps.length = s.steps
      ∧ (searchOp s key).1.steps.take s.steps.length = s.steps := by
  refine ⟨?_, ?_, ?_⟩ <;>
    (simp only [insertOp, deleteOp, searchOp, ensureOp]
     cases s.currentOp <;> simp [List.take_left])

/-- C5: deleting from an empty tree is a recorded no-op: the tree stays
empty and the only step produced (and logged) is a terminal NOT_FOUND step;
no operation of the model signals an error (all operations are total
functions into ordinary result values).  In addition search never mutates
the tree. -/
theorem delete_empty_tree_noop (s : EngineState) (key : Int) :
    (deleteOp emptyEngine key).1.root = RBT.nil
      ∧ (deleteOp emptyEngine key).2.map (fun st => st.type) = ["NOT_FOUND"]
      ∧ (deleteOp emptyEngine key).1.steps.map (fun st => st.type) = ["NOT_FOUND"]
      ∧ (searchOp s key).1.root = s.root := by
  refine ⟨rfl, rfl, rfl, ?_⟩
  simp only [searchOp, ensureOp]
  cases s.currentOp <;> rfl

end RB

namespace TreeLayout

/-- C8: both layout versions applied to a `null` snapshot return a layout
with an empty node list and an empty edge list. -/
theorem layout_of_null_is_empty (w h : ℚ) :
    (computeTreeLayout1 .null w h).nodes = []
      ∧ (computeTreeLayout1 .null w h).edges = []
      ∧ (computeTreeLayout2 .null w h).nodes = []
      ∧ (computeTreeLayout2 .null w h).edges = [] :=
  ⟨rfl, rfl, rfl, rfl⟩

end TreeLayout

namespace MC

theorem foldl_upd_diag_zero (is : List Nat) (t : Tbl) (ht : ∀ a b, t a b = 0) :
    ∀ a b, (is.foldl (fun t i => upd t i i 0) t) a b = 0 := by
  induction is generalizing t with
  | nil => exact ht
  | cons i is ih =>
      intro a b
      refine ih _ ?_ a b
      intro a b
      simp only [upd]
      split
      · split
        · rfl
        · exact ht a b
      · exact ht a b

theorem diagLoop_zero (n : Nat) : diagLoop n (fun _ _ => 0) = (fun _ _ => 0) := by
  funext a b
  exact foldl_upd_diag_zero _ _ (fun _ _ => rfl) a b

/-- C10: the two `matrixChainOrder` implementations are equivalent: for
every dimensions array they return the same `m` and `s` tables (the
explicit diagonal-zeroing pass of the `part_004` version is a no-op on the
zero-initialized table), and the `MatrixChain.ts` version additionally
reports `minCost = m[1][n]` when `n > 0` and `0` otherwise. -/
theorem matrixChainOrder_versions_equivalent (p : List Nat) :
    (matrixChainOrder p).m = (matrixChainOrder004 p).m
      ∧ (matrixChainOrder p).s = (matrixChainOrder004 p).s
      ∧ (matrixChainOrder p).minCost =
          (if 0 < p.length - 1 then (matrixChainOrder p).m 1 (p.length - 1) else 0) := by
  refine ⟨?_, ?_, rfl⟩
  · show (mainLoops p (p.length - 1) ((fun _ _ => 0), (fun _ _ => 0))).1
        = (mainLoops p (p.length - 1) (diagLoop (p.length - 1) (fun _ _ => 0), (fun _ _ => 0))).1
    rw [diagLoop_zero]
  · show (mainLoops p (p.length - 1) ((fun _ _ => 0), (fun _ _ => 0))).2
        = (mainLoops p (p.length - 1) (diagLoop (p.length - 1) (fun _ _ => 0), (fun _ _ => 0))).2
    rw [diagLoop_zero]

/-- C7 counterexample: the `part_004` `buildParenthesisTree` gives two calls
with identical arguments different node ids, because the module-level
`_nodeCounter` persists across calls (here: `"n1"` vs `"n2"`). -/
theorem build004_ids_depend_on_module_state :
    ¬ ((call004 0 zeroS 1 1 1).1.map TreeNode004.nid =
        (call004 ((call004 0 zeroS 1 1 1).2) zeroS 1 1 1).1.map TreeNode004.nid) := by
  decide

theorem stripIds_mk (i lab : String) (l r : Option TreeNode004) :
    stripIds (.mk i lab l r) = .mk lab (l.map stripIds) (r.map stripIds) := by
  cases l <;> cases r <;> rfl

theorem build004_stripIds_counter_independent (fuel : Nat) :
    ∀ (s : STbl) (i j c c' : Nat),
      (build004 s fuel i j c).1.map stripIds = (build004 s fuel i j c').1.map stripIds := by
  induction fuel with
  | zero => intro s i j c c'; rfl
  | succ fuel ih =>
      intro s i j c c'
      by_cases h : i = j
      · simp [build004, h, stripIds]
      · have hL := ih s i (s i j) c c'
        have hR := ih s (s i j + 1) j (build004 s fuel i (s i j) c).2
          (build004 s fuel i (s i j) c').2
        simp only [build004, h, if_false, Option.map_some', stripIds_mk,
          Option.some.injEq, LabelTree.mk.injEq, true_and]
        exact ⟨hL, hR⟩

/-- C7 (amended): the `MatrixChain.ts` `buildParenthesisTree` (called with
its default fresh id counter) is pure — two calls with equal arguments
return identical trees, node ids included, independent of any state
persisting across calls — while the `part_004` version returns trees with
equal labels and structure but node ids that depend on the module-level
counter persisting across calls. -/
theorem buildParenthesisTree_purity (st st' : Nat) (s : STbl) (fuel i j : Nat) :
    (callTs st s fuel i j).1 = (callTs st' s fuel i j).1
      ∧ (call004 st s fuel i j).1.map stripIds = (call004 st' s fuel i j).1.map stripIds :=
  ⟨rfl, build004_stripIds_counter_independent fuel s i j st st'⟩

end MC

namespace RB

theorem colorOf_blacken (t : RBT) : colorOf (blacken t) = .BLACK := by
  cases t <;> rfl

theorem inorder_blacken (t : RBT) : inorder (blacken t) = inorder t := by
  cases t <;> rfl

theorem noRedRed_blacken (t : RBT) (h : noRedRed t = true) : noRedRed (blacken t) = true := by
  cases t with
  | nil => rfl
  | node c i k l r =>
      simp only [noRedRed, Bool.and_eq_true, Bool.or_eq_true] at h ⊢
      exact ⟨⟨Or.inl (by decide), h.1.2⟩, h.2⟩

theorem bhOk_blacken (t : RBT) : bhOk (blacken t) = bhOk t := by
  cases t <;> rfl

theorem bh_blacken_of_red (t : RBT) (h : colorOf t = .RED) : bh (blacken t) = bh t + 1 := by
  cases t with
  | nil => simp [colorOf] at h
  | node c i k l r =>
      simp only [colorOf] at h
      subst h
      simp [blacken, bh]

theorem inorder_plug (ctx : List Frame) : ∀ t : RBT,
    inorder (plug t ctx) = ctxL ctx ++ (inorder t ++ ctxR ctx) := by
  induction ctx with
  | nil => intro t; simp [plug, ctxL, ctxR]
  | cons f rest ih =>
      intro t
      cases hd : f.dir <;>
        simp [plug, ih, wrap, hd, ctxL, ctxR, inorder]

theorem inorder_caseA (z : RBT) (p g : Frame) :
    inorder (caseA z p g) = inorder (plug z [p, g]) := by
  cases hp : p.dir <;> cases hg : g.dir <;>
    simp [caseA, plug, wrap, hp, hg, inorder, inorder_blacken]

theorem inorder_rebuild (z : RBT) (p g : Frame) :
    inorder (rebuild z p g) = inorder (plug z [p, g]) := by
  cases hp : p.dir <;> cases hg : g.dir <;> cases z <;>
    simp [rebuild, plug, wrap, hp, hg, inorder]

theorem plug_append (c₁ : List Frame) : ∀ (c₂ : List Frame) (t : RBT),
    plug t (c₁ ++ c₂) = plug (plug t c₁) c₂ := by
  induction c₁ with
  | nil => intro c₂ t; rfl
  | cons f rest ih => intro c₂ t; simp [plug, ih]

theorem inorder_fixup : ∀ (ctx : List Frame) (z : RBT),
    inorder (fixup z ctx) = inorder (plug z ctx)
  | [], _ => rfl
  | [_], _ => rfl
  | p :: g :: rest', z => by
      by_cases hp : p.color = .BLACK
      · simp [fixup, hp]
      · by_cases hu : colorOf g.sib = .RED
        · have ih := inorder_fixup rest' (caseA z p g)
          simp only [fixup, hp, hu, if_false, if_true]
          rw [ih, show (p :: g :: rest' : List Frame) = [p, g] ++ rest' from rfl,
            plug_append, inorder_plug rest', inorder_plug rest', inorder_caseA]
        · simp only [fixup, hp, hu, if_false]
          rw [show (p :: g :: rest' : List Frame) = [p, g] ++ rest' from rfl,
            plug_append, inorder_plug rest', inorder_plug rest', inorder_rebuild]

end RB

namespace RB

theorem sorted_append_iff {l₁ l₂ : List Int} :
    List.Sorted (· < ·) (l₁ ++ l₂) ↔
      List.Sorted (· < ·) l₁ ∧ List.Sorted (· < ·) l₂ ∧ ∀ a ∈ l₁, ∀ b ∈ l₂, a < b :=
  List.pairwise_append

theorem sorted_middle (key : Int) (X Y : List Int)
    (h : List.Sorted (· < ·) (X ++ Y))
    (hX : ∀ a ∈ X, a < key) (hY : ∀ b ∈ Y, key < b) :
    List.Sorted (· < ·) (X ++ key :: Y) := by
  rw [sorted_append_iff] at h ⊢
  obtain ⟨h1, h2, h3⟩ := h
  refine ⟨h1, ?_, ?_⟩
  · rw [List.sorted_cons]
    exact ⟨hY, h2⟩
  · intro x hx y hy
    rcases List.mem_cons.mp hy with rfl | hy'
    · exact hX x hx
    · exact h3 x hx y hy'

theorem descend_sorted (key : Int) : ∀ (t : RBT) (acc ctx : List Frame),
    descend key t acc = some ctx → List.Sorted (· < ·) (inorder t) →
    ∃ X Y, inorder t = X ++ Y ∧ ctxL ctx = ctxL acc ++ X ∧ ctxR ctx = Y ++ ctxR acc
      ∧ (∀ a ∈ X, a < key) ∧ (∀ b ∈ Y, key < b) := by
  intro t
  induction t with
  | nil =>
      intro acc ctx hd _
      simp only [descend, Option.some.injEq] at hd
      subst hd
      exact ⟨[], [], rfl, by simp, by simp, by simp, by simp⟩
  | node c i k l r ihl ihr =>
      intro acc ctx hd hs
      have hs' := hs
      simp only [inorder, sorted_append_iff, List.sorted_cons] at hs'
      obtain ⟨hsL, ⟨hkR, hsR⟩, hcross⟩ := hs'
      simp only [descend] at hd
      by_cases h1 : key < k
      · rw [if_pos h1] at hd
        obtain ⟨X, Y, hio, hL, hR, hXlt, hYgt⟩ := ihl _ _ hd hsL
        refine ⟨X, Y ++ (k :: inorder r), ?_, ?_, ?_, hXlt, ?_⟩
        · simp [inorder, hio]
        · simpa [ctxL] using hL
        · rw [hR]; simp [ctxR]
        · intro b hb
          rcases List.mem_append.mp hb with hb | hb
          · exact hYgt b hb
          · rcases List.mem_cons.mp hb with rfl | hb'
            · exact h1
            · exact lt_trans h1 (hkR b hb')
      · rw [if_neg h1] at hd
        by_cases h2 : k < key
        · rw [if_pos h2] at hd
          obtain ⟨X, Y, hio, hL, hR, hXlt, hYgt⟩ := ihr _ _ hd hsR
          refine ⟨(inorder l ++ [k]) ++ X, Y, ?_, ?_, ?_, ?_, hYgt⟩
          · simp [inorder, hio]
          · rw [hL]; simp [ctxL]
          · simpa [ctxR] using hR
          · intro a ha
            rcases List.mem_append.mp ha with ha | ha
            · rcases List.mem_append.mp ha with ha' | ha'
              · exact lt_trans (hcross a ha' k (List.mem_cons_self k _)) h2
              · rw [List.mem_singleton.mp ha']; exact h2
            · exact hXlt a ha
        · rw [if_neg h2] at hd
          exact absurd hd (by simp)

theorem descend_of_mem (key : Int) : ∀ (t : RBT) (acc : List Frame),
    List.Sorted (· < ·) (inorder t) → key ∈ inorder t → descend key t acc = none := by
  intro t
  induction t with
  | nil => intro acc _ hm; simp [inorder] at hm
  | node c i k l r ihl ihr =>
      intro acc hs hm
      have hs' := hs
      simp only [inorder, sorted_append_iff, List.sorted_cons] at hs'
      obtain ⟨hsL, ⟨hkR, hsR⟩, hcross⟩ := hs'
      simp only [inorder, List.mem_append, List.mem_cons] at hm
      simp only [descend]
      by_cases h1 : key < k
      · rw [if_pos h1]
        refine ihl _ hsL ?_
        rcases hm with hm | hm | hm
        · exact hm
        · exact absurd h1 (by simp [hm])
        · exact absurd (hkR key hm) (by intro h; exact absurd (lt_trans h1 h) (lt_irrefl key))
      · rw [if_neg h1]
        by_cases h2 : k < key
        · rw [if_pos h2]
          refine ihr _ hsR ?_
          rcases hm with hm | hm | hm
          · exact absurd (hcross key hm k (List.mem_cons_self k _)) (by
              intro h; exact absurd (lt_trans h h2) (lt_irrefl key))
          · exact absurd h2 (by simp [hm])
          · exact hm
        · rw [if_neg h2]

end RB

namespace RB

theorem eq_black_of_ne_red {c : Color} (h : ¬c = .RED) : c = .BLACK := by
  cases c
  · exact absurd rfl h
  · rfl

theorem noRedRed_node {c : Color} {i : Nat} {k : Int} {l r : RBT} :
    noRedRed (.node c i k l r) = true ↔
      (c = .RED → colorOf l = .BLACK ∧ colorOf r = .BLACK)
        ∧ noRedRed l = true ∧ noRedRed r = true := by
  simp only [noRedRed, Bool.and_eq_true, Bool.or_eq_true, bne_iff_ne, beq_iff_eq, and_assoc]
  constructor
  · rintro ⟨h1, h2, h3⟩
    refine ⟨fun hc => ?_, h2, h3⟩
    rcases h1 with h | h
    · exact absurd hc h
    · exact h
  · rintro ⟨h1, h2, h3⟩
    refine ⟨?_, h2, h3⟩
    by_cases hc : c = .RED
    · exact Or.inr (h1 hc)
    · exact Or.inl hc

theorem bhOk_node {c : Color} {i : Nat} {k : Int} {l r : RBT} :
    bhOk (.node c i k l r) = true ↔
      bhOk l = true ∧ bhOk r = true ∧ bh l = bh r := by
  simp [bhOk, Bool.and_eq_true, beq_iff_eq, and_assoc]

theorem colorOf_wrap (f : Frame) (t : RBT) : colorOf (wrap f t) = f.color := by
  cases hd : f.dir <;> simp [wrap, hd, colorOf]

theorem plug_RB : ∀ (ctx : List Frame) (n : Nat) (t : RBT),
    CtxInv ctx n → noRedRed t = true → bhOk t = true → bh t = n →
    (colorOf t = .RED → colorHead ctx = .BLACK) →
    noRedRed (plug t ctx) = true ∧ bhOk (plug t ctx) = true := by
  intro ctx
  induction ctx with
  | nil => intro n t _ h1 h2 _ _; exact ⟨h1, h2⟩
  | cons f rest ih =>
      intro n t hinv h1 h2 h3 h4
      obtain ⟨hs1, hs2, hs3, hred, hrest⟩ := hinv
      have hct : f.color = .RED → colorOf t = .BLACK := by
        intro hf
        by_cases hc : colorOf t = .RED
        · have := h4 hc
          rw [colorHead, hf] at this
          exact absurd this (by decide)
        · exact eq_black_of_ne_red hc
      have hw1 : noRedRed (wrap f t) = true := by
        cases hd : f.dir <;>
          (simp only [wrap, hd, noRedRed_node]
           exact ⟨fun hf => by
              rcases hred hf with ⟨hsb, _⟩
              exact by first
                | exact ⟨hct hf, hsb⟩
                | exact ⟨hsb, hct hf⟩, by
              first
                | exact ⟨h1, hs1⟩
                | exact ⟨hs1, h1⟩⟩)
      have hw2 : bhOk (wrap f t) = true := by
        cases hd : f.dir
        · simp only [wrap, hd, bhOk_node]
          exact ⟨h2, hs2, by rw [h3, hs3]⟩
        · simp only [wrap, hd, bhOk_node]
          exact ⟨hs2, h2, by rw [h3, hs3]⟩
      have hw3 : bh (wrap f t) = n + (if f.color = .BLACK then 1 else 0) := by
        cases hd : f.dir
        · simp only [wrap, hd, bh]
          rw [h3]
        · simp only [wrap, hd, bh]
          rw [hs3]
      have hw4 : colorOf (wrap f t) = .RED → colorHead rest = .BLACK := by
        rw [colorOf_wrap]
        intro hf
        exact (hred hf).2
      exact ih _ _ hrest hw1 hw2 hw3 hw4

theorem descend_ctxInv (key : Int) : ∀ (t : RBT) (acc ctx : List Frame),
    descend key t acc = some ctx → noRedRed t = true → bhOk t = true →
    CtxInv acc (bh t) → (colorOf t = .RED → colorHead acc = .BLACK) →
    CtxInv ctx 0 := by
  intro t
  induction t with
  | nil =>
      intro acc ctx hd _ _ hi _
      simp only [descend, Option.some.injEq] at hd
      subst hd
      exact hi
  | node c i k l r ihl ihr =>
      intro acc ctx hd h1 h2 hi h4
      rw [noRedRed_node] at h1
      rw [bhOk_node] at h2
      obtain ⟨hrr, hnl, hnr⟩ := h1
      obtain ⟨hbl, hbr, hbe⟩ := h2
      have hcol : colorOf (.node c i k l r) = c := rfl
      simp only [descend] at hd
      by_cases hlt : key < k
      · rw [if_pos hlt] at hd
        refine ihl _ _ hd hnl hbl ?_ ?_
        · refine ⟨hnr, hbr, hbe.symm, ?_, ?_⟩
          · intro hc
            exact ⟨(hrr hc).2, h4 (by rw [hcol]; exact hc)⟩
          · rw [show bh l + (if c = .BLACK then 1 else 0) = bh (.node c i k l r) from rfl]
            exact hi
        · intro hlc
          have : ¬c = .RED := fun hc => by
            have := (hrr hc).1
            rw [hlc] at this
            exact absurd this (by decide)
          exact eq_black_of_ne_red this
      · rw [if_neg hlt] at hd
        by_cases hgt : k < key
        · rw [if_pos hgt] at hd
          refine ihr _ _ hd hnr hbr ?_ ?_
          · refine ⟨hnl, hbl, ?_, ?_, ?_⟩
            · rw [hbe]
            · intro hc
              exact ⟨(hrr hc).1, h4 (by rw [hcol]; exact hc)⟩
            · rw [show bh r + (if c = .BLACK then 1 else 0)
                  = bh (.node c i k l r) from by rw [bh, hbe]]
              exact hi
          · intro hrc
            have : ¬c = .RED := fun hc => by
              have := (hrr hc).2
              rw [hrc] at this
              exact absurd this (by decide)
            exact eq_black_of_ne_red this
        · rw [if_neg hgt] at hd
          exact absurd hd (by simp)

theorem rootOK_nil : rootOK [] := by
  intro f h
  simp at h

theorem rootOK_of_cons {a : Frame} {l : List Frame} (h : rootOK (a :: l)) : rootOK l := by
  intro f hf
  cases l with
  | nil => simp at hf
  | cons b bs => exact h f (by rw [List.getLast?_cons_cons]; exact hf)

theorem descend_rootOK (key : Int) : ∀ (t : RBT) (acc ctx : List Frame),
    descend key t acc = some ctx → rootOK acc →
    (acc = [] → colorOf t = .BLACK ∨ t = .nil) → rootOK ctx := by
  intro t
  induction t with
  | nil =>
      intro acc ctx hd hr _
      simp only [descend, Option.some.injEq] at hd
      subst hd
      exact hr
  | node c i k l r ihl ihr =>
      intro acc ctx hd hr hroot
      simp only [descend] at hd
      have hacc : ∀ (d : Dir) (sib : RBT), rootOK (⟨d, c, i, k, sib⟩ :: acc) := by
        intro d sib f' hf'
        cases acc with
        | nil =>
            simp only [List.getLast?_singleton, Option.some.injEq] at hf'
            subst hf'
            rcases hroot rfl with hb | hb
            · exact hb
            · exact RBT.noConfusion hb
        | cons a as => exact hr f' (by rw [List.getLast?_cons_cons] at hf'; exact hf')
      by_cases hlt : key < k
      · rw [if_pos hlt] at hd
        exact ihl _ _ hd (hacc _ _) (by intro h; exact absurd h (by simp))
      · rw [if_neg hlt] at hd
        by_cases hgt : k < key
        · rw [if_pos hgt] at hd
          exact ihr _ _ hd (hacc _ _) (by intro h; exact absurd h (by simp))
        · rw [if_neg hgt] at hd
          exact absurd hd (by simp)

end RB

namespace RB

theorem caseA_RB (z : RBT) (p g : Frame) (n : Nat)
    (h1 : noRedRed z = true) (h2 : bhOk z = true) (h3 : bh z = n)
    (hps1 : noRedRed p.sib = true) (hps2 : bhOk p.sib = true) (hps3 : bh p.sib = n)
    (hgs1 : noRedRed g.sib = true) (hgs2 : bhOk g.sib = true) (hgs3 : bh g.sib = n)
    (hu : colorOf g.sib = .RED) :
    noRedRed (caseA z p g) = true ∧ bhOk (caseA z p g) = true
      ∧ bh (caseA z p g) = n + 1 ∧ colorOf (caseA z p g) = .RED := by
  have hub : bh (blacken g.sib) = n + 1 := by rw [bh_blacken_of_red g.sib hu, hgs3]
  have hun : noRedRed (blacken g.sib) = true := noRedRed_blacken _ hgs1
  have huo : bhOk (blacken g.sib) = true := by rw [bhOk_blacken]; exact hgs2
  have hpt1 : noRedRed (.node .BLACK p.id p.key z p.sib) = true :=
    noRedRed_node.mpr ⟨(fun h => nomatch h), h1, hps1⟩
  have hpt1' : noRedRed (.node .BLACK p.id p.key p.sib z) = true :=
    noRedRed_node.mpr ⟨(fun h => nomatch h), hps1, h1⟩
  have hpt2 : bhOk (.node .BLACK p.id p.key z p.sib) = true :=
    bhOk_node.mpr ⟨h2, hps2, by rw [h3, hps3]⟩
  have hpt2' : bhOk (.node .BLACK p.id p.key p.sib z) = true :=
    bhOk_node.mpr ⟨hps2, h2, by rw [h3, hps3]⟩
  have hpt3 : bh (.node .BLACK p.id p.key z p.sib) = n + 1 := by simp [bh, h3]
  have hpt3' : bh (.node .BLACK p.id p.key p.sib z) = n + 1 := by simp [bh, hps3]
  cases hpd : p.dir <;> cases hgd : g.dir <;>
    simp only [caseA, hpd, hgd] <;> refine ⟨?_, ?_, ?_, rfl⟩
  · rw [noRedRed_node]
    exact ⟨fun _ => ⟨rfl, colorOf_blacken _⟩, hpt1, hun⟩
  · rw [bhOk_node]
    exact ⟨hpt2, huo, by rw [hpt3, hub]⟩
  · simp [bh, h3]
  · rw [noRedRed_node]
    exact ⟨fun _ => ⟨colorOf_blacken _, rfl⟩, hun, hpt1⟩
  · rw [bhOk_node]
    exact ⟨huo, hpt2, by rw [hub, hpt3]⟩
  · simp [bh, hub]
  · rw [noRedRed_node]
    exact ⟨fun _ => ⟨rfl, colorOf_blacken _⟩, hpt1', hun⟩
  · rw [bhOk_node]
    exact ⟨hpt2', huo, by rw [hpt3', hub]⟩
  · simp [bh, hps3]
  · rw [noRedRed_node]
    exact ⟨fun _ => ⟨colorOf_blacken _, rfl⟩, hun, hpt1'⟩
  · rw [bhOk_node]
    exact ⟨huo, hpt2', by rw [hub, hpt3']⟩
  · simp [bh, hub]

theorem rebuild_RB (z : RBT) (p g : Frame) (n : Nat)
    (h1 : noRedRed z = true) (h2 : bhOk z = true) (h3 : bh z = n) (h4 : colorOf z = .RED)
    (hpsb : colorOf p.sib = .BLACK)
    (hps1 : noRedRed p.sib = true) (hps2 : bhOk p.sib = true) (hps3 : bh p.sib = n)
    (hgs1 : noRedRed g.sib = true) (hgs2 : bhOk g.sib = true) (hgs3 : bh g.sib = n)
    (hu : ¬colorOf g.sib = .RED) :
    noRedRed (rebuild z p g) = true ∧ bhOk (rebuild z p g) = true
      ∧ bh (rebuild z p g) = n + 1 ∧ colorOf (rebuild z p g) = .BLACK := by
  have hgsb : colorOf g.sib = .BLACK := eq_black_of_ne_red hu
  cases z with
  | nil => exact absurd h4 (by simp [colorOf])
  | node zc zi zk zl zr =>
      have hzc : zc = .RED := h4
      subst hzc
      rw [noRedRed_node] at h1
      obtain ⟨hrr, hzl1, hzr1⟩ := h1
      obtain ⟨hzlb, hzrb⟩ := hrr rfl
      rw [bhOk_node] at h2
      obtain ⟨hzl2, hzr2, hzee⟩ := h2
      have hblz : bh zl = n := by
        have : bh (RBT.node .RED zi zk zl zr) = bh zl := by simp [bh]
        rw [this] at h3
        exact h3
      have hbzr : bh zr = n := by rw [← hzee]; exact hblz
      cases hpd : p.dir <;> cases hgd : g.dir <;>
        simp only [rebuild, hpd, hgd] <;> refine ⟨?_, ?_, ?_, rfl⟩
      · -- p left, g left : zig-zig
        rw [noRedRed_node]
        refine ⟨(fun h => nomatch h), ?_, ?_⟩
        · exact noRedRed_node.mpr ⟨fun _ => ⟨hzlb, hzrb⟩, hzl1, hzr1⟩
        · exact noRedRed_node.mpr ⟨fun _ => ⟨hpsb, hgsb⟩, hps1, hgs1⟩
      · rw [bhOk_node]
        refine ⟨?_, ?_, ?_⟩
        · exact bhOk_node.mpr ⟨hzl2, hzr2, hzee⟩
        · exact bhOk_node.mpr ⟨hps2, hgs2, by rw [hps3, hgs3]⟩
        · simp [bh, hblz, hps3]
      · simp [bh, hblz]
      · -- p left, g right : zig-zag (z is left child of p, p right child of g)
        rw [noRedRed_node]
        refine ⟨(fun h => nomatch h), ?_, ?_⟩
        · exact noRedRed_node.mpr ⟨fun _ => ⟨hgsb, hzlb⟩, hgs1, hzl1⟩
        · exact noRedRed_node.mpr ⟨fun _ => ⟨hzrb, hpsb⟩, hzr1, hps1⟩
      · rw [bhOk_node]
        refine ⟨?_, ?_, ?_⟩
        · exact bhOk_node.mpr ⟨hgs2, hzl2, by rw [hgs3, hblz]⟩
        · exact bhOk_node.mpr ⟨hzr2, hps2, by rw [hbzr, hps3]⟩
        · simp [bh, hgs3, hbzr]
      · simp [bh, hgs3]
      · -- p right, g left : zig-zag (z right child of p, p left child of g)
        rw [noRedRed_node]
        refine ⟨(fun h => nomatch h), ?_, ?_⟩
        · exact noRedRed_node.mpr ⟨fun _ => ⟨hpsb, hzlb⟩, hps1, hzl1⟩
        · exact noRedRed_node.mpr ⟨fun _ => ⟨hzrb, hgsb⟩, hzr1, hgs1⟩
      · rw [bhOk_node]
        refine ⟨?_, ?_, ?_⟩
        · exact bhOk_node.mpr ⟨hps2, hzl2, by rw [hps3, hblz]⟩
        · exact bhOk_node.mpr ⟨hzr2, hgs2, by rw [hbzr, hgs3]⟩
        · simp [bh, hps3, hbzr]
      · simp [bh, hps3]
      · -- p right, g right : zig-zig
        rw [noRedRed_node]
        refine ⟨(fun h => nomatch h), ?_, ?_⟩
        · exact noRedRed_node.mpr ⟨fun _ => ⟨hgsb, hpsb⟩, hgs1, hps1⟩
        · exact noRedRed_node.mpr ⟨fun _ => ⟨hzlb, hzrb⟩, hzl1, hzr1⟩
      · rw [bhOk_node]
        refine ⟨?_, ?_, ?_⟩
        · exact bhOk_node.mpr ⟨hgs2, hps2, by rw [hgs3, hps3]⟩
        · exact bhOk_node.mpr ⟨hzl2, hzr2, hzee⟩
        · simp [bh, hgs3, hblz]
      · simp [bh, hgs3]

theorem fixup_RB : ∀ (ctx : List Frame) (z : RBT) (n : Nat),
    CtxInv ctx n → rootOK ctx → noRedRed z = true → bhOk z = true → bh z = n →
    colorOf z = .RED →
    noRedRed (fixup z ctx) = true ∧ bhOk (fixup z ctx) = true
  | [], _, _, _, _, h1, h2, _, _ => ⟨h1, h2⟩
  | [p], z, n, hinv, hroot, h1, h2, h3, _ => by
      have hp : p.color = .BLACK := hroot p (by simp)
      have he : fixup z [p] = plug z [p] := rfl
      rw [he]
      exact plug_RB [p] n z hinv h1 h2 h3 (fun _ => hp)
  | p :: g :: rest', z, n, hinv, hroot, h1, h2, h3, h4 => by
      obtain ⟨hps1, hps2, hps3, hpred, hrest⟩ := hinv
      by_cases hp : p.color = .BLACK
      · rw [show fixup z (p :: g :: rest') = plug z (p :: g :: rest') from by
          simp [fixup, hp]]
        exact plug_RB _ n z ⟨hps1, hps2, hps3, hpred, hrest⟩ h1 h2 h3 (fun _ => hp)
      · have hpc : p.color = .RED := by
          cases hcc : p.color
          · rfl
          · exact absurd hcc hp
        obtain ⟨hpsb, hgb⟩ := hpred hpc
        have hgc : g.color = .BLACK := hgb
        have hrest2 : CtxInv (g :: rest') n := by
          rw [hpc] at hrest
          simpa using hrest
        obtain ⟨hgs1, hgs2, hgs3, _, hrest'⟩ := hrest2
        have hctxn1 : CtxInv rest' (n + 1) := by
          rw [hgc] at hrest'
          simpa using hrest'
        have hrootr : rootOK rest' := rootOK_of_cons (rootOK_of_cons hroot)
        by_cases hu : colorOf g.sib = .RED
        · rw [show fixup z (p :: g :: rest') = fixup (caseA z p g) rest' from by
            simp [fixup, hp, hu]]
          obtain ⟨c1, c2, c3, c4⟩ :=
            caseA_RB z p g n h1 h2 h3 hps1 hps2 hps3 hgs1 hgs2 hgs3 hu
          exact fixup_RB rest' (caseA z p g) (n + 1) hctxn1 hrootr c1 c2 c3 c4
        · rw [show fixup z (p :: g :: rest') = plug (rebuild z p g) rest' from by
            simp [fixup, hp, hu]]
          obtain ⟨c1, c2, c3, c4⟩ :=
            rebuild_RB z p g n h1 h2 h3 h4 hpsb hps1 hps2 hps3 hgs1 hgs2 hgs3 hu
          exact plug_RB rest' (n + 1) _ hctxn1 c1 c2 c3
            (fun hr => absurd (c4 ▸ hr) (by decide))

theorem insertT_rbInvariants (t : RBT) (nid : Nat) (key : Int)
    (h : rbInvariants t) : rbInvariants (insertT t nid key) := by
  obtain ⟨ha, _, hc, hd, he⟩ := h
  unfold insertT
  cases hdes : descend key t [] with
  | none => exact ⟨ha, rfl, hc, hd, he⟩
  | some ctx =>
      have hctx : CtxInv ctx 0 := by
        refine descend_ctxInv key t [] ctx hdes hc hd trivial ?_
        intro _
        rfl
      have hrt : rootOK ctx := by
        refine descend_rootOK key t [] ctx hdes rootOK_nil ?_
        intro _
        rcases ha with h | h
        · exact Or.inr h
        · exact Or.inl h
      obtain ⟨f1, f2⟩ := fixup_RB ctx (.node .RED nid key .nil .nil) 0 hctx hrt rfl rfl rfl rfl
      refine ⟨Or.inr (colorOf_blacken _), rfl, noRedRed_blacken _ f1, ?_, ?_⟩
      · rw [bhOk_blacken]
        exact f2
      · rw [inorder_blacken, inorder_fixup, inorder_plug]
        obtain ⟨X, Y, hio, hL, hR, hXlt, hYgt⟩ := descend_sorted key t [] ctx hdes he
        rw [hL, hR]
        simp only [ctxL, ctxR, List.nil_append, List.append_nil]
        rw [show inorder (.node .RED nid key .nil .nil) = [key] from rfl]
        exact sorted_middle key X Y (hio ▸ he) hXlt hYgt

theorem insertS_fst (t : RBT) (nid : Nat) (key : Int) :
    (insertS t nid key).1 = insertT t nid key := by
  unfold insertS insertT
  cases hdes : descend key t [] <;> simp [hdes]

theorem insertOp_root (s : EngineState) (key : Int) :
    (insertOp s key).1.root = insertT s.root s.nextNodeId key := by
  simp only [insertOp, ensureOp]
  cases s.currentOp <;> simp [insertS_fst]

/-- C1: for every sequence of insert calls on an initially empty tree,
after each call (i.e. after every prefix of the sequence) the live tree
satisfies all five Red-Black invariants: root BLACK or empty, NIL BLACK, no
RED node with a RED child, equal BLACK count on every path to a descendant
NIL, and strictly increasing in-order keys. -/
theorem insert_sequences_preserve_invariants (ks : List Int) (j : Nat) :
    rbInvariants (insertRun (ks.take j)).root := by
  suffices h : ∀ (ls : List Int) (s : EngineState), rbInvariants s.root →
      rbInvariants (ls.foldl (fun s k => (insertOp s k).1) s).root by
    exact h _ _ ⟨Or.inl rfl, rfl, rfl, rfl, List.sorted_nil⟩
  intro ls
  induction ls with
  | nil => intro s hs; exact hs
  | cons k ks ih =>
      intro s hs
      rw [List.foldl_cons]
      refine ih _ ?_
      rw [insertOp_root]
      exact insertT_rbInvariants s.root s.nextNodeId k hs

theorem descendSteps_noop (key : Int) : ∀ (t : RBT) (acc : List Frame),
    descend key t acc = none →
    ((descendSteps key t acc).map (fun p => p.type)).getLast? = some "NOOP" := by
  intro t
  induction t with
  | nil => intro acc hd; simp [descend] at hd
  | node c i k l r ihl ihr =>
      intro acc hd
      simp only [descend] at hd
      simp only [descendSteps]
      by_cases h1 : key < k
      · rw [if_pos h1] at hd ⊢
        have htail := ihl _ hd
        rw [List.map_cons]
        cases hm : (descendSteps key l (⟨.left, c, i, k, r⟩ :: acc)).map (fun p => p.type) with
        | nil => rw [hm] at htail; simp at htail
        | cons b bs =>
            rw [hm] at htail
            rw [List.getLast?_cons_cons]
            exact htail
      · rw [if_neg h1] at hd ⊢
        by_cases h2 : k < key
        · rw [if_pos h2] at hd ⊢
          have htail := ihr _ hd
          rw [List.map_cons]
          cases hm : (descendSteps key r (⟨.right, c, i, k, l⟩ :: acc)).map (fun p => p.type) with
          | nil => rw [hm] at htail; simp at htail
          | cons b bs =>
              rw [hm] at htail
              rw [List.getLast?_cons_cons]
              exact htail
        · rw [if_neg h2]
          rfl

theorem enumFrom_map_type : ∀ (a : Nat) (ps : List PStep),
    (List.enumFrom a ps).map (fun e => e.2.type) = ps.map (fun p => p.type)
  | _, [] => rfl
  | a, p :: ps => by
      simp only [List.enumFrom, List.map_cons]
      rw [enumFrom_map_type (a + 1) ps]

theorem mkSteps_types (a b : Nat) (ps : List PStep) :
    (mkSteps a b ps).map (fun st => st.type) = ps.map (fun p => p.type) := by
  rw [mkSteps, List.map_map]
  exact enumFrom_map_type 0 ps

theorem insertS_dup (t : RBT) (nid : Nat) (key : Int) (hd : descend key t [] = none) :
    insertS t nid key = (t, descendSteps key t [], false) := by
  simp [insertS, hd]

theorem ensureOp_preserve (s : EngineState) (ty : String) (keys : List Int) :
    (ensureOp s ty keys).2.root = s.root
      ∧ (ensureOp s ty keys).2.nextNodeId = s.nextNodeId
      ∧ (ensureOp s ty keys).2.steps = s.steps
      ∧ (ensureOp s ty keys).2.nextStepId = s.nextStepId := by
  unfold ensureOp
  cases s.currentOp <;> simp

/-- C4: inserting a key that is already present is idempotent: no new node
is created (the node-id counter does not advance), the tree is unchanged,
and the last step of the returned list denotes that the key is already
present. -/
theorem insert_duplicate_is_noop (s : EngineState) (key : Int)
    (hs : List.Sorted (· < ·) (inorder s.root)) (hmem : key ∈ inorder s.root) :
    (insertOp s key).1.root = s.root
      ∧ (insertOp s key).1.nextNodeId = s.nextNodeId
      ∧ ((insertOp s key).2.map (fun st => st.type)).getLast? = some "NOOP" := by
  have hd : descend key s.root [] = none := descend_of_mem key s.root [] hs hmem
  obtain ⟨e1, e2, e3, e4⟩ := ensureOp_preserve s "INSERT" [key]
  refine ⟨?_, ?_, ?_⟩
  · show (insertS (ensureOp s "INSERT" [key]).2.root
        (ensureOp s "INSERT" [key]).2.nextNodeId key).1 = s.root
    rw [e1, e2, insertS_dup s.root s.nextNodeId key hd]
  · show (ensureOp s "INSERT" [key]).2.nextNodeId
        + (if (insertS (ensureOp s "INSERT" [key]).2.root
            (ensureOp s "INSERT" [key]).2.nextNodeId key).2.2 then 1 else 0) = s.nextNodeId
    rw [e1, e2, insertS_dup s.root s.nextNodeId key hd]
    simp
  · show ((mkSteps (ensureOp s "INSERT" [key]).2.nextStepId (ensureOp s "INSERT" [key]).1
        (insertS (ensureOp s "INSERT" [key]).2.root
          (ensureOp s "INSERT" [key]).2.nextNodeId key).2.1).map (fun st => st.type)).getLast?
      = some "NOOP"
    rw [e1, e2, insertS_dup s.root s.nextNodeId key hd, mkSteps_types]
    exact descendSteps_noop key s.root [] hd

/-- Witness for C4 at a concrete input: the engine state after inserting 10,
then inserting 10 again. -/
theorem insert_duplicate_is_noop_witness :
    List.Sorted (· < ·) (inorder (insertRun [10]).root)
      ∧ 10 ∈ inorder (insertRun [10]).root
      ∧ ((insertOp (insertRun [10]) 10).1.root = (insertRun [10]).root
          ∧ (insertOp (insertRun [10]) 10).1.nextNodeId = (insertRun [10]).nextNodeId
          ∧ ((insertOp (insertRun [10]) 10).2.map (fun st => st.type)).getLast?
              = some "NOOP") :=
  ⟨by decide, by decide,
    insert_duplicate_is_noop (insertRun [10]) 10 (by decide) (by decide)⟩

end RB

namespace MC

/-- Writing a cell then reading it back gives the written value. -/
theorem upd_same {α : Type} (t : Nat → Nat → α) (i j : Nat) (v : α) :
    upd t i j v i j = v := by
  simp [upd]

/-- Writing a cell leaves every other cell unchanged. -/
theorem upd_other {α : Type} (t : Nat → Nat → α) (i j : Nat) (v : α) (a b : Nat)
    (h : ¬(a = i ∧ b = j)) : upd t i j v a b = t a b := by
  by_cases ha : a = i
  · subst ha
    have hb : ¬b = j := fun hb => h ⟨rfl, hb⟩
    simp [upd, hb]
  · simp [upd, ha]

/-- Off the diagonal, the recurrence is the minimum of its candidate list. -/
theorem mSpec_unfold (p : List Nat) (i j : Nat) (h : i < j) :
    mSpec p i j = (cands (mSpec p) p i j).foldl min ⊤ := by
  rw [mSpec, dif_pos h, cands]
  exact congrArg (fun l => List.foldl min ⊤ l)
    (List.attach_map_coe (List.range' i (j - i))
      (fun k => mSpec p i k + mSpec p (k + 1) j
        + ((pd p (i - 1) * pd p k * pd p j : Nat) : WithTop Nat)))

/-- On and below the diagonal the recurrence gives `0`. -/
theorem mSpec_diag (p : List Nat) (i j : Nat) (h : ¬i < j) : mSpec p i j = 0 := by
  rw [mSpec, dif_neg h]

/-- A `min`-fold is bounded by its initial accumulator. -/
theorem foldl_min_le_init (a : WithTop Nat) : ∀ (l : List (WithTop Nat)),
    l.foldl min a ≤ a := by
  intro l
  induction l generalizing a with
  | nil => exact le_refl a
  | cons x l ih => exact le_trans (ih (min a x)) (min_le_left a x)

/-- A `min`-fold is bounded by every member of the list. -/
theorem foldl_min_le_mem (a x : WithTop Nat) (l : List (WithTop Nat)) (hm : x ∈ l) :
    l.foldl min a ≤ x := by
  induction l generalizing a with
  | nil => simp at hm
  | cons y l ih =>
      rcases List.mem_cons.mp hm with rfl | h'
      · exact le_trans (foldl_min_le_init (min a x) l) (min_le_right a x)
      · exact ih (min a y) h'

/-- The recurrence value is always finite: splitting at `k = i` uses a
zero diagonal cell, a structurally smaller cell and a finite product. -/
theorem mSpec_lt_top (p : List Nat) : ∀ (i j : Nat), mSpec p i j < ⊤ := by
  intro i j
  by_cases h : i < j
  · rw [mSpec_unfold p i j h]
    have hkmem : i ∈ List.range' i (j - i) := by
      rw [List.mem_range'_1]
      omega
    have hcmem : mSpec p i i + mSpec p (i + 1) j
        + ((pd p (i - 1) * pd p i * pd p j : Nat) : WithTop Nat) ∈ cands (mSpec p) p i j :=
      List.mem_map_of_mem _ hkmem
    have hfin : mSpec p i i + mSpec p (i + 1) j
        + ((pd p (i - 1) * pd p i * pd p j : Nat) : WithTop Nat) < ⊤ := by
      have h1 : mSpec p i i = 0 := mSpec_diag p i i (by omega)
      have h2 : mSpec p (i + 1) j < ⊤ := mSpec_lt_top p (i + 1) j
      rw [h1, zero_add]
      exact WithTop.add_lt_top.mpr ⟨h2, WithTop.coe_lt_top _⟩
    exact lt_of_le_of_lt (foldl_min_le_mem _ _ _ hcmem) hfin
  · rw [mSpec_diag p i j h]
    exact WithTop.coe_lt_top 0

/-- Characterization of the inner `k`-fold: it only writes cell `(i, j)`,
its final `m[i][j]` is the running minimum of the candidate costs, and either
nothing improved the initial value or `s[i][j]` is an in-range split
attaining `m[i][j]` (read off the initial table). -/
theorem kLoop_inv (p : List Nat) (i j : Nat) :
    ∀ (ks : List Nat) (m : Tbl) (s : STbl),
    (∀ k ∈ ks, i ≤ k ∧ k < j) →
    (∀ a b, ¬(a = i ∧ b = j) →
        (ks.foldl (kStep p i j) (m, s)).1 a b = m a b
          ∧ (ks.foldl (kStep p i j) (m, s)).2 a b = s a b)
      ∧ (ks.foldl (kStep p i j) (m, s)).1 i j
          = (ks.map (fun k => m i k + m (k + 1) j
              + ((pd p (i - 1) * pd p k * pd p j : Nat) : WithTop Nat))).foldl min (m i j)
      ∧ (((ks.foldl (kStep p i j) (m, s)).1 i j = m i j
            ∧ (ks.foldl (kStep p i j) (m, s)).2 i j = s i j)
          ∨ ((i ≤ (ks.foldl (kStep p i j) (m, s)).2 i j
                ∧ (ks.foldl (kStep p i j) (m, s)).2 i j < j)
              ∧ (ks.foldl (kStep p i j) (m, s)).1 i j
                  = m i ((ks.foldl (kStep p i j) (m, s)).2 i j)
                    + m ((ks.foldl (kStep p i j) (m, s)).2 i j + 1) j
                    + ((pd p (i - 1) * pd p ((ks.foldl (kStep p i j) (m, s)).2 i j)
                        * pd p j : Nat) : WithTop Nat))) := by
  intro ks
  induction ks with
  | nil =>
      intro m s _
      exact ⟨fun a b _ => ⟨rfl, rfl⟩, rfl, Or.inl ⟨rfl, rfl⟩⟩
  | cons k ks ih =>
      intro m s hb
      obtain ⟨hk, hbs⟩ := List.forall_mem_cons.mp hb
      rw [List.foldl_cons, List.map_cons, List.foldl_cons]
      by_cases hlt : (m i k + m (k + 1) j
          + ((pd p (i - 1) * pd p k * pd p j : Nat) : WithTop Nat)) < m i j
      · -- the update fires
        have hstep : kStep p i j (m, s) k
            = (upd m i j (m i k + m (k + 1) j
                + ((pd p (i - 1) * pd p k * pd p j : Nat) : WithTop Nat)), upd s i j k) := by
          simp only [kStep]
          split
          next h => rfl
          next h => exact absurd hlt h
        rw [hstep]
        set v := m i k + m (k + 1) j
            + ((pd p (i - 1) * pd p k * pd p j : Nat) : WithTop Nat) with hv
        obtain ⟨f1, f2, f3⟩ := ih (upd m i j v) (upd s i j k) hbs
        have hmapeq : (ks.map (fun k' => upd m i j v i k' + upd m i j v (k' + 1) j
              + ((pd p (i - 1) * pd p k' * pd p j : Nat) : WithTop Nat)))
            = ks.map (fun k' => m i k' + m (k' + 1) j
              + ((pd p (i - 1) * pd p k' * pd p j : Nat) : WithTop Nat)) := by
          refine List.map_congr_left ?_
          intro x hx
          obtain ⟨hx1, hx2⟩ := hbs x hx
          rw [upd_other m i j v i x (by omega), upd_other m i j v (x + 1) j (by omega)]
        refine ⟨?_, ?_, ?_⟩
        · intro a b hab
          obtain ⟨g1, g2⟩ := f1 a b hab
          rw [g1, g2, upd_other m i j v a b hab, upd_other s i j k a b hab]
          exact ⟨rfl, rfl⟩
        · rw [f2, hmapeq, upd_same, min_eq_right (le_of_lt hlt)]
        · rcases f3 with ⟨g1, g2⟩ | ⟨⟨g1, g2⟩, g3⟩
          · refine Or.inr ⟨?_, ?_⟩
            · rw [g2, upd_same]
              omega
            · rw [g1, g2, upd_same, upd_same]
          · refine Or.inr ⟨⟨g1, g2⟩, ?_⟩
            rw [g3, upd_other m i j v i _ (by omega), upd_other m i j v _ j (by omega)]
      · have hstep : kStep p i j (m, s) k = (m, s) := by
          simp only [kStep]
          split
          next h => exact absurd h hlt
          next h => rfl
        rw [hstep]
        obtain ⟨f1, f2, f3⟩ := ih m s hbs
        refine ⟨f1, ?_, f3⟩
        rw [f2, min_eq_left (le_of_not_lt hlt)]

/-- One `(i, j := i + l - 1)` chain computation: under the invariant for
smaller widths it writes only cell `(i, j)` and completes it. -/
theorem ijStep_cell (p : List Nat) (n l i : Nat) (ms : Tbl × STbl)
    (hl : 2 ≤ l) (hi : 1 ≤ i) (hj : i + l - 1 ≤ n)
    (hdone : Done p n (l - 1) ms) :
    (∀ a b, ¬(a = i ∧ b = i + l - 1) →
        (ijStep p l ms i).1 a b = ms.1 a b ∧ (ijStep p l ms i).2 a b = ms.2 a b)
      ∧ cellDone p (ijStep p l ms i) i (i + l - 1) := by
  have hij : i < i + l - 1 := by omega
  have hks : ∀ k ∈ List.range' i (i + l - 1 - i), i ≤ k ∧ k < i + l - 1 := by
    intro k hk
    rw [List.mem_range'_1] at hk
    omega
  obtain ⟨f1, f2, f3⟩ := kLoop_inv p i (i + l - 1) (List.range' i (i + l - 1 - i))
    (upd ms.1 i (i + l - 1) ⊤) ms.2 hks
  have hify : ijStep p l ms i
      = (List.range' i (i + l - 1 - i)).foldl (kStep p i (i + l - 1))
          (upd ms.1 i (i + l - 1) ⊤, ms.2) := rfl
  have hcands : (List.range' i (i + l - 1 - i)).map
        (fun k => upd ms.1 i (i + l - 1) ⊤ i k + upd ms.1 i (i + l - 1) ⊤ (k + 1) (i + l - 1)
          + ((pd p (i - 1) * pd p k * pd p (i + l - 1) : Nat) : WithTop Nat))
      = cands (mSpec p) p i (i + l - 1) := by
    rw [cands]
    refine List.map_congr_left ?_
    intro k hk
    rw [List.mem_range'_1] at hk
    have h1 : upd ms.1 i (i + l - 1) ⊤ i k = mSpec p i k := by
      rw [upd_other _ _ _ _ _ _ (by omega)]
      exact hdone.1 i k hi (by omega) (by omega) (by omega)
    have h2 : upd ms.1 i (i + l - 1) ⊤ (k + 1) (i + l - 1) = mSpec p (k + 1) (i + l - 1) := by
      rw [upd_other _ _ _ _ _ _ (by omega)]
      exact hdone.1 (k + 1) (i + l - 1) (by omega) (by omega) (by omega) (by omega)
    rw [h1, h2]
  have hm : (ijStep p l ms i).1 i (i + l - 1) = mSpec p i (i + l - 1) := by
    rw [hify] at *
    rw [f2, hcands, upd_same, ← mSpec_unfold p i (i + l - 1) hij]
  refine ⟨?_, hm, ?_, ?_⟩
  · intro a b hab
    rw [hify]
    obtain ⟨g1, g2⟩ := f1 a b hab
    rw [g1, g2, upd_other _ _ _ _ _ _ hab]
    exact ⟨rfl, rfl⟩
  · -- bounds of the split entry
    rcases f3 with ⟨g1, _⟩ | ⟨⟨g1, g2⟩, _⟩
    · exfalso
      rw [hify] at hm
      rw [g1, upd_same] at hm
      exact absurd hm.symm (ne_of_lt (mSpec_lt_top p i (i + l - 1)))
    · rw [hify]
      exact ⟨g1, g2⟩
  · rcases f3 with ⟨g1, _⟩ | ⟨⟨g1, g2⟩, g3⟩
    · exfalso
      rw [hify] at hm
      rw [g1, upd_same] at hm
      exact absurd hm.symm (ne_of_lt (mSpec_lt_top p i (i + l - 1)))
    · rw [hify]
      have h1 : upd ms.1 i (i + l - 1) ⊤ i
            ((List.foldl (kStep p i (i + l - 1)) (upd ms.1 i (i + l - 1) ⊤, ms.2)
              (List.range' i (i + l - 1 - i))).2 i (i + l - 1))
          = mSpec p i ((List.foldl (kStep p i (i + l - 1)) (upd ms.1 i (i + l - 1) ⊤, ms.2)
              (List.range' i (i + l - 1 - i))).2 i (i + l - 1)) := by
        rw [upd_other _ _ _ _ _ _ (by omega)]
        exact hdone.1 i _ hi g1 (by omega) (by omega)
      have h2 : upd ms.1 i (i + l - 1) ⊤
            ((List.foldl (kStep p i (i + l - 1)) (upd ms.1 i (i + l - 1) ⊤, ms.2)
              (List.range' i (i + l - 1 - i))).2 i (i + l - 1) + 1) (i + l - 1)
          = mSpec p ((List.foldl (kStep p i (i + l - 1)) (upd ms.1 i (i + l - 1) ⊤, ms.2)
              (List.range' i (i + l - 1 - i))).2 i (i + l - 1) + 1) (i + l - 1) := by
        rw [upd_other _ _ _ _ _ _ (by omega)]
        exact hdone.1 _ _ (by omega) (by omega) (by omega) (by omega)
      rw [g3, h1, h2]

/-- Folding `ijStep` over distinct start indices writes only the visited
cells, preserves the smaller-width invariant, and completes every visited
cell. -/
theorem iLoop_aux (p : List Nat) (n l : Nat) (hl : 2 ≤ l) :
    ∀ (xs : List Nat) (ms : Tbl × STbl),
    xs.Nodup →
    (∀ i ∈ xs, 1 ≤ i ∧ i + l - 1 ≤ n) →
    Done p n (l - 1) ms →
    (∀ a b, (∀ i ∈ xs, ¬(a = i ∧ b = i + l - 1)) →
        (xs.foldl (ijStep p l) ms).1 a b = ms.1 a b
          ∧ (xs.foldl (ijStep p l) ms).2 a b = ms.2 a b)
      ∧ Done p n (l - 1) (xs.foldl (ijStep p l) ms)
      ∧ ∀ i ∈ xs, cellDone p (xs.foldl (ijStep p l) ms) i (i + l - 1) := by
  intro xs
  induction xs with
  | nil =>
      intro ms _ _ hdone
      exact ⟨fun a b _ => ⟨rfl, rfl⟩, hdone, fun i hi => absurd hi (List.not_mem_nil i)⟩
  | cons i xs ih =>
      intro ms hnd hb hdone
      obtain ⟨hbi, hbs⟩ := List.forall_mem_cons.mp hb
      obtain ⟨hf, hcell⟩ := ijStep_cell p n l i ms hl hbi.1 hbi.2 hdone
      have hdone' : Done p n (l - 1) (ijStep p l ms i) := by
        constructor
        · intro a b h1 h2 h3 h4
          rw [(hf a b (by omega)).1]
          exact hdone.1 a b h1 h2 h3 h4
        · intro a b h1 h2 h3 h4
          obtain ⟨g1, g2⟩ := hf a b (by omega)
          obtain ⟨c1, c2, c3⟩ := hdone.2 a b h1 h2 h3 h4
          exact ⟨g1 ▸ c1, g2 ▸ c2, g1 ▸ g2 ▸ c3⟩
      obtain ⟨f1, f2, f3⟩ := ih (ijStep p l ms i) hnd.of_cons hbs hdone'
      rw [List.foldl_cons]
      refine ⟨?_, f2, ?_⟩
      · intro a b hab
        obtain ⟨habi, habs⟩ := List.forall_mem_cons.mp
          (fun i' (hi' : i' ∈ i :: xs) => hab i' hi')
        obtain ⟨g1, g2⟩ := f1 a b habs
        obtain ⟨g3, g4⟩ := hf a b habi
        exact ⟨g1.trans g3, g2.trans g4⟩
      · intro i' hi'
        rcases List.mem_cons.mp hi' with rfl | hmem
        · have hne : ∀ i₂ ∈ xs, ¬(i' = i₂ ∧ i' + l - 1 = i₂ + l - 1) := by
            intro i₂ h2 hc
            exact (List.nodup_cons.mp hnd).1 (hc.1 ▸ h2)
          obtain ⟨g1, g2⟩ := f1 i' (i' + l - 1) hne
          obtain ⟨c1, c2, c3⟩ := hcell
          exact ⟨g1 ▸ c1, g2 ▸ c2, g1 ▸ g2 ▸ c3⟩
        · exact f3 i' hmem

/-- One pass of the `l` loop upgrades the invariant from width `l - 1` to
width `l`. -/
theorem lStep_done (p : List Nat) (n l : Nat) (hl : 2 ≤ l) (hln : l ≤ n)
    (ms : Tbl × STbl) (hdone : Done p n (l - 1) ms) :
    Done p n l (lStep p n ms l) := by
  have hb : ∀ i ∈ List.range' 1 (n - l + 1), 1 ≤ i ∧ i + l - 1 ≤ n := by
    intro i hi
    rw [List.mem_range'_1] at hi
    omega
  obtain ⟨_, f2, f3⟩ := iLoop_aux p n l hl (List.range' 1 (n - l + 1)) ms
    (List.nodup_range' 1 (n - l + 1)) hb hdone
  have hcell : ∀ i j, 1 ≤ i → i < j → j ≤ n → j = i + l - 1 →
      cellDone p (lStep p n ms l) i j := by
    intro i j h1 h2 h3 h4
    have hmem : i ∈ List.range' 1 (n - l + 1) := by
      rw [List.mem_range'_1]
      omega
    have := f3 i hmem
    rw [← h4] at this
    exact this
  constructor
  · intro i j h1 h2 h3 h4
    by_cases hw : j + 1 ≤ i + (l - 1)
    · exact f2.1 i j h1 h2 h3 hw
    · have h5 : j = i + l - 1 := by omega
      have h6 : i < j := by omega
      exact (hcell i j h1 h6 h3 h5).1
  · intro i j h1 h2 h3 h4
    by_cases hw : j + 1 ≤ i + (l - 1)
    · exact f2.2 i j h1 h2 h3 hw
    · exact hcell i j h1 h2 h3 (by omega)

/-- Folding `lStep` over consecutive lengths `a, a+1, ...` upgrades the
invariant accordingly. -/
theorem levels_aux (p : List Nat) (n : Nat) :
    ∀ (cnt a : Nat) (ms : Tbl × STbl), 2 ≤ a → a - 1 + cnt ≤ n →
    Done p n (a - 1) ms →
    Done p n (a - 1 + cnt) ((List.range' a cnt).foldl (lStep p n) ms) := by
  intro cnt
  induction cnt with
  | zero =>
      intro a ms _ _ h
      simpa using h
  | succ c ih =>
      intro a ms ha hcnt hdone
      rw [List.range'_succ, List.foldl_cons]
      have h1 : Done p n a (lStep p n ms a) :=
        lStep_done p n a ha (by omega) ms hdone
      have h2 : Done p n (a + 1 - 1 + c)
          ((List.range' (a + 1) c).foldl (lStep p n) (lStep p n ms a)) :=
        ih (a + 1) (lStep p n ms a) (by omega) (by omega) h1
      have he : a - 1 + (c + 1) = a + 1 - 1 + c := by omega
      rw [he]
      exact h2

/-- The zero-initialized tables satisfy the invariant at width `1`:
only diagonal cells are in range, and the recurrence gives `0` there. -/
theorem done_init (p : List Nat) (n : Nat) :
    Done p n 1 ((fun _ _ => (0 : WithTop Nat)), (fun _ _ => (0 : Nat))) := by
  constructor
  · intro i j _ h2 _ h4
    have hij : i = j := by omega
    subst hij
    exact (mSpec_diag p i i (by omega)).symm
  · intro i j _ h2 _ h4
    omega

/-- After the nested loops every cell of the triangle is fully computed. -/
theorem mainLoops_done (p : List Nat) (n : Nat) (hn : 1 ≤ n) :
    Done p n n (mainLoops p n ((fun _ _ => 0), (fun _ _ => 0))) := by
  have h := levels_aux p n (n - 1) 2 ((fun _ _ => 0), (fun _ _ => 0))
    (by omega) (by omega) (done_init p n)
  have he : 2 - 1 + (n - 1) = n := by omega
  rw [he] at h
  exact h

/-- C6: for every dimensions array `p` with `n = p.length - 1 >= 1`,
`matrixChainOrder p` returns tables `m` and `s` satisfying the matrix-chain
DP recurrence: `m[i][i] = 0` for `1 <= i <= n`, and for `1 <= i < j <= n`,
`m[i][j]` is the minimum over `i <= k < j` of
`m[i][k] + m[k+1][j] + p[i-1]*p[k]*p[j]`, with `s[i][j]` an in-range `k`
attaining that minimum. -/
theorem matrixChainOrder_recurrence (p : List Nat) (hn : 1 ≤ p.length - 1) :
    (∀ i, 1 ≤ i → i ≤ p.length - 1 → (matrixChainOrder p).m i i = 0)
      ∧ ∀ i j, 1 ≤ i → i < j → j ≤ p.length - 1 →
          (matrixChainOrder p).m i j
              = (cands (matrixChainOrder p).m p i j).foldl min ⊤
            ∧ (i ≤ (matrixChainOrder p).s i j ∧ (matrixChainOrder p).s i j < j)
            ∧ (matrixChainOrder p).m i j
                = (matrixChainOrder p).m i ((matrixChainOrder p).s i j)
                  + (matrixChainOrder p).m ((matrixChainOrder p).s i j + 1) j
                  + ((pd p (i - 1) * pd p ((matrixChainOrder p).s i j) * pd p j : Nat)
                      : WithTop Nat) := by
  have hD := mainLoops_done p (p.length - 1) hn
  have hm : (matrixChainOrder p).m
      = (mainLoops p (p.length - 1) ((fun _ _ => 0), (fun _ _ => 0))).1 := rfl
  have hs : (matrixChainOrder p).s
      = (mainLoops p (p.length - 1) ((fun _ _ => 0), (fun _ _ => 0))).2 := rfl
  constructor
  · intro i h1 h2
    rw [hm, hD.1 i i h1 (le_refl i) h2 (by omega)]
    exact mSpec_diag p i i (by omega)
  · intro i j h1 h2 h3
    obtain ⟨c1, c2, c3⟩ := hD.2 i j h1 h2 h3 (by omega)
    have hentry : ∀ a b, 1 ≤ a → a ≤ b → b ≤ p.length - 1 →
        (matrixChainOrder p).m a b = mSpec p a b := by
      intro a b g1 g2 g3
      rw [hm]
      exact hD.1 a b g1 g2 g3 (by omega)
    have hcand : cands (matrixChainOrder p).m p i j = cands (mSpec p) p i j := by
      rw [cands, cands]
      refine List.map_congr_left ?_
      intro k hk
      rw [List.mem_range'_1] at hk
      rw [hentry i k h1 (by omega) (by omega), hentry (k + 1) j (by omega) (by omega) h3]
    refine ⟨?_, ?_, ?_⟩
    · rw [hm, c1, ← hm, hcand, ← mSpec_unfold p i j h2]
    · rw [hs]
      exact c2
    · rw [hm, hs, c3, hD.1 i _ h1 c2.1 (by omega) (by omega),
        hD.1 _ j (by omega) (by omega) h3 (by omega)]

/-- Witness: the recurrence theorem instantiated at `p = [5, 4, 6]`,
cells `(1, 1)` and `(1, 2)`. -/
theorem matrixChainOrder_recurrence_witness :
    1 ≤ ([5, 4, 6] : List Nat).length - 1
      ∧ (matrixChainOrder [5, 4, 6]).m 1 1 = 0
      ∧ ((matrixChainOrder [5, 4, 6]).m 1 2
            = (cands (matrixChainOrder [5, 4, 6]).m [5, 4, 6] 1 2).foldl min ⊤
          ∧ (1 ≤ (matrixChainOrder [5, 4, 6]).s 1 2 ∧ (matrixChainOrder [5, 4, 6]).s 1 2 < 2)
          ∧ (matrixChainOrder [5, 4, 6]).m 1 2
              = (matrixChainOrder [5, 4, 6]).m 1 ((matrixChainOrder [5, 4, 6]).s 1 2)
                + (matrixChainOrder [5, 4, 6]).m ((matrixChainOrder [5, 4, 6]).s 1 2 + 1) 2
                + ((pd [5, 4, 6] 0 * pd [5, 4, 6] ((matrixChainOrder [5, 4, 6]).s 1 2)
                    * pd [5, 4, 6] 2 : Nat) : WithTop Nat)) :=
  ⟨by decide,
   (matrixChainOrder_recurrence [5, 4, 6] (by decide)).1 1 (by decide) (by decide),
   (matrixChainOrder_recurrence [5, 4, 6] (by decide)).2 1 2 (by decide) (by decide) (by decide)⟩

end MC

namespace TreeLayout

/-- A truthy id is the id itself. -/
theorem truthy_some {x : Option Int} {c : Int} (h : truthy x = some c) : x = some c := by
  cases x with
  | none => exact Option.noConfusion h
  | some v =>
      by_cases hv : v = 0
      · rw [truthy, if_pos hv] at h
        exact Option.noConfusion h
      · rw [truthy, if_neg hv] at h
        exact h

/-- A falsy id slot held `null` or the id `0`. -/
theorem truthy_none {x : Option Int} (h : truthy x = none) : x = none ∨ x = some 0 := by
  cases x with
  | none => exact Or.inl rfl
  | some v =>
      by_cases hv : v = 0
      · exact Or.inr (by rw [hv])
      · rw [truthy, if_neg hv] at h
        exact Option.noConfusion h

/-- The node ids of a snapshot, unfolded one level. -/
theorem snapIds_node (i v : Int) (c : RB.Color) (pid : Option Int) (l r : STree) :
    snapIds (.node i v c pid l r) = i :: (snapIds l ++ snapIds r) := by
  rw [snapIds, snapList, List.map_cons, List.map_append]
  rfl

/-- A child slot's id is the id of the subtree root. -/
theorem childId_mem {t : STree} {c : Int} (h : childId t = some c) : c ∈ snapIds t := by
  cases t with
  | null => exact Option.noConfusion h
  | node i v col pid l r =>
      have hic : i = c := Option.some.inj h
      rw [snapIds_node, hic]
      exact List.mem_cons_self c _

/-- Every id stored in a child slot of a snapshot entry is the id of a
snapshot node. -/
theorem child_mem_snapIds : ∀ (t : STree), ∀ pr ∈ snapList t, ∀ c : Int,
    pr.2.1 = some c ∨ pr.2.2 = some c → c ∈ snapIds t := by
  intro t
  induction t with
  | null => intro pr h; exact absurd h (List.not_mem_nil pr)
  | node i v col pid l r ihl ihr =>
      intro pr hpr c hc
      rw [snapList, List.mem_cons] at hpr
      rw [snapIds_node]
      rcases hpr with rfl | hpr
      · rcases hc with hc | hc
        · exact List.mem_cons_of_mem _ (List.mem_append_left _ (childId_mem hc))
        · exact List.mem_cons_of_mem _ (List.mem_append_right _ (childId_mem hc))
      · rcases List.mem_append.mp hpr with h | h
        · exact List.mem_cons_of_mem _ (List.mem_append_left _ (ihl pr h c hc))
        · exact List.mem_cons_of_mem _ (List.mem_append_right _ (ihr pr h c hc))

/-- With distinct ids, a snapshot entry is determined by its id. -/
theorem snapList_inj (t : STree) (hnd : (snapIds t).Nodup) :
    ∀ x ∈ snapList t, ∀ y ∈ snapList t, x.1 = y.1 → x = y :=
  fun _ hx _ hy h => List.inj_on_of_nodup_map hnd hx hy h

/-- With distinct ids, the two child slots of an entry never hold the same
id. -/
theorem children_ne : ∀ (t : STree), (snapIds t).Nodup →
    ∀ pr ∈ snapList t, ∀ c : Int, ¬(pr.2.1 = some c ∧ pr.2.2 = some c) := by
  intro t
  induction t with
  | null => intro _ pr h; exact absurd h (List.not_mem_nil pr)
  | node i v col pid l r ihl ihr =>
      intro hnd pr hpr c hc
      rw [snapIds_node, List.nodup_cons, List.nodup_append] at hnd
      rw [snapList, List.mem_cons] at hpr
      rcases hpr with rfl | hpr
      · have hl : c ∈ snapIds l := childId_mem hc.1
        have hr : c ∈ snapIds r := childId_mem hc.2
        exact hnd.2.2.2 hl hr
      · rcases List.mem_append.mp hpr with h | h
        · exact ihl hnd.2.1 pr h c hc
        · exact ihr hnd.2.2.1 pr h c hc

/-- A predicate that holds exactly at one member of a duplicate-free list is
satisfied exactly once. -/
theorem countP_eq_one_of_nodup {α : Type} (a : α) (p : α → Bool) :
    ∀ (l : List α), l.Nodup → a ∈ l → (∀ x ∈ l, p x = true ↔ x = a) →
    l.countP p = 1 := by
  intro l
  induction l with
  | nil => intro _ ha; exact absurd ha (List.not_mem_nil a)
  | cons b l ih =>
      intro hl ha hp
      rw [List.countP_cons]
      rcases List.mem_cons.mp ha with rfl | ha'
      · have hpb : p a = true := (hp a (List.mem_cons_self a l)).mpr rfl
        have h0 : l.countP p = 0 := by
          rw [List.countP_eq_zero]
          intro x hx hpx
          exact (List.nodup_cons.mp hl).1
            ((hp x (List.mem_cons_of_mem a hx)).mp hpx ▸ hx)
        rw [if_pos hpb, h0]
      · have hpb : ¬p b = true := by
          intro hb
          have : b = a := (hp b (List.mem_cons_self b l)).mp hb
          exact (List.nodup_cons.mp hl).1 (this ▸ ha')
        rw [if_neg hpb, ih (List.nodup_cons.mp hl).2 ha'
          (fun x hx => hp x (List.mem_cons_of_mem b hx))]

/-- With distinct ids, a parent id and a child id identify exactly one
parent-child slot across the whole snapshot. -/
theorem snap_pair_count (t : STree) (hnd : (snapIds t).Nodup)
    (pr : Int × Option Int × Option Int) (hpr : pr ∈ snapList t)
    (c : Int) (hc : pr.2.1 = some c ∨ pr.2.2 = some c) :
    (snapList t).countP (fun x => x.1 == pr.1 && x.2.1 == some c)
      + (snapList t).countP (fun x => x.1 == pr.1 && x.2.2 == some c) = 1 := by
  have hndl : (snapList t).Nodup := List.Nodup.of_map _ hnd
  have hone : ∀ (f : Int × Option Int × Option Int → Option Int), f pr = some c →
      (snapList t).countP (fun x => x.1 == pr.1 && f x == some c) = 1 := by
    intro f hf
    refine countP_eq_one_of_nodup pr _ (snapList t) hndl hpr ?_
    intro x hx
    constructor
    · intro hp
      rw [Bool.and_eq_true, beq_iff_eq] at hp
      exact snapList_inj t hnd x hx pr hpr hp.1
    · intro hp
      subst hp
      rw [Bool.and_eq_true, beq_iff_eq, beq_iff_eq]
      exact ⟨rfl, hf⟩
  have hzero : ∀ (f g : Int × Option Int × Option Int → Option Int), f pr = some c →
      (∀ x ∈ snapList t, ¬(g x = some c ∧ f x = some c)) →
      (snapList t).countP (fun x => x.1 == pr.1 && g x == some c) = 0 := by
    intro f g hf hfg
    rw [List.countP_eq_zero]
    intro x hx hp
    rw [Bool.and_eq_true, beq_iff_eq, beq_iff_eq] at hp
    have hxp : x = pr := snapList_inj t hnd x hx pr hpr hp.1
    subst hxp
    exact hfg x hx ⟨hp.2, hf⟩
  rcases hc with hc | hc
  · rw [hone (fun x => x.2.1) hc,
      hzero (fun x => x.2.1) (fun x => x.2.2) hc
        (fun x hx hgf => children_ne t hnd x hx c ⟨hgf.2, hgf.1⟩)]
  · rw [hone (fun x => x.2.2) hc,
      hzero (fun x => x.2.2) (fun x => x.2.1) hc
        (fun x hx hgf => children_ne t hnd x hx c ⟨hgf.1, hgf.2⟩)]

/-- Every edge the second layout version emits goes from a snapshot node to
one of that node's real children. -/
theorem traverse2_mem (vs hs : ℚ) : ∀ (t : STree) (level idx : Nat),
    ∀ e ∈ (traverse2 vs hs t level idx).2.2,
      ∃ pr ∈ snapList t, pr.1 = e.src ∧ (pr.2.1 = some e.dst ∨ pr.2.2 = some e.dst) := by
  intro t
  induction t with
  | null => intro level idx e he; exact absurd he (List.not_mem_nil e)
  | node i v c pid l r ihl ihr =>
      intro level idx e he
      simp only [traverse2, List.mem_append] at he
      rcases he with (he | he) | he
      · obtain ⟨pr, hpr, h⟩ := ihl (level + 1) idx e he
        exact ⟨pr, by rw [snapList]; exact List.mem_cons_of_mem _ (List.mem_append_left _ hpr), h⟩
      · rcases he with hm | hm
        · cases hcl : childId l with
          | none => rw [hcl] at hm; exact absurd hm (List.not_mem_nil e)
          | some li =>
              rw [hcl] at hm
              have hme : e = ⟨i, li⟩ := List.mem_singleton.mp hm
              subst hme
              exact ⟨(i, childId l, childId r),
                by rw [snapList]; exact List.mem_cons_self _ _, rfl, Or.inl (by rw [hcl])⟩
        · cases hcr : childId r with
          | none => rw [hcr] at hm; exact absurd hm (List.not_mem_nil e)
          | some ri =>
              rw [hcr] at hm
              have hme : e = ⟨i, ri⟩ := List.mem_singleton.mp hm
              subst hme
              exact ⟨(i, childId l, childId r),
                by rw [snapList]; exact List.mem_cons_self _ _, rfl, Or.inr (by rw [hcr])⟩
      · obtain ⟨pr, hpr, h⟩ := ihr (level + 1) ((traverse2 vs hs l (level + 1) idx).1 + 1) e he
        exact ⟨pr, by rw [snapList]; exact List.mem_cons_of_mem _ (List.mem_append_right _ hpr), h⟩

/-- Edge multiplicity of the second layout version: the number of edges
from `P` to `c` equals the number of child slots of entries with id `P`
holding `c`. -/
theorem traverse2_count (vs hs : ℚ) : ∀ (t : STree) (level idx : Nat) (P c : Int),
    ((traverse2 vs hs t level idx).2.2).countP (fun (e : LEdge) => e.src == P && e.dst == c)
      = (snapList t).countP (fun x => x.1 == P && x.2.1 == some c)
        + (snapList t).countP (fun x => x.1 == P && x.2.2 == some c) := by
  intro t
  induction t with
  | null => intro level idx P c; rfl
  | node i v c' pid l r ihl ihr =>
      intro level idx P c
      simp only [traverse2, List.countP_append, snapList, List.countP_cons]
      rw [ihl (level + 1) idx P c,
        ihr (level + 1) ((traverse2 vs hs l (level + 1) idx).1 + 1) P c]
      have hss : ∀ (a b : Int), ((some a == some b) : Bool) = (a == b) := fun a b => rfl
      have hns : ∀ (b : Int), ((none == some b) : Bool) = false := fun b => rfl
      cases hcl : childId l <;> cases hcr : childId r <;>
        simp only [List.countP_cons, List.countP_nil, hss, hns, Bool.and_false,
          Bool.false_eq_true, if_false] <;>
        omega

/-- Every entry the first layout version places is either a real snapshot
entry or a synthetic NIL placeholder with a negative id. -/
theorem traverse1_mem : ∀ (t : STree) (depth : Nat) (lb rb : ℚ) (pid : Option Int) (il : Bool),
    (∀ j ∈ snapIds t, 0 < j) → (∀ p, pid = some p → 0 < p) →
    ∀ n ∈ traverse1 t depth lb rb pid il,
      (n.id, n.leftId, n.rightId) ∈ snapList t ∨ n.id < 0 := by
  intro t
  induction t with
  | null =>
      intro depth lb rb pid il _ hpid n hn
      cases pid with
      | none => exact absurd hn (List.not_mem_nil n)
      | some p =>
          have hn2 : n = ⟨-(p * 10 + (if il then 1 else 2)), none, RB.Color.BLACK,
              (lb + rb) / 2, 50 + (depth : ℚ) * 60, some p, none, none⟩ :=
            List.mem_singleton.mp hn
          right
          rw [hn2]
          have hp := hpid p rfl
          cases il
          · show -(p * 10 + 2) < 0
            omega
          · show -(p * 10 + 1) < 0
            omega
  | node i v c pid' l r ihl ihr =>
      intro depth lb rb pid il hpos hpid n hn
      have hposl : ∀ j ∈ snapIds l, 0 < j := fun j hj =>
        hpos j (by rw [snapIds_node]; exact List.mem_cons_of_mem _ (List.mem_append_left _ hj))
      have hposr : ∀ j ∈ snapIds r, 0 < j := fun j hj =>
        hpos j (by rw [snapIds_node]; exact List.mem_cons_of_mem _ (List.mem_append_right _ hj))
      have hpi : ∀ p, (some i : Option Int) = some p → 0 < p := fun p hp =>
        Option.some.inj hp ▸ hpos i (by rw [snapIds_node]; exact List.mem_cons_self _ _)
      simp only [traverse1, List.mem_cons, List.mem_append] at hn
      rcases hn with hn | hn | hn
      · left
        rw [hn]
        exact List.mem_cons_self _ _
      · rcases ihl (depth + 1) lb _ (some i) true hposl hpi n hn with h | h
        · left
          rw [snapList]
          exact List.mem_cons_of_mem _ (List.mem_append_left _ h)
        · right; exact h
      · rcases ihr (depth + 1) _ rb (some i) false hposr hpi n hn with h | h
        · left
          rw [snapList]
          exact List.mem_cons_of_mem _ (List.mem_append_right _ h)
        · right; exact h

/-- Edge multiplicity of one node list entry of the first layout version,
for a positive target id: one edge per child slot holding that id (NIL
placeholder edges have negative targets and never match). -/
theorem edgesFor1_count (ns : List LayoutNode1) (n : LayoutNode1) (P c : Int)
    (hi : 0 < n.id) (hc : 0 < c) (hl : ∀ j, n.leftId = some j → 0 < j)
    (hr : ∀ j, n.rightId = some j → 0 < j) :
    (edgesFor1 ns n).countP (fun (e : LEdge) => e.src == P && e.dst == c)
      = (if (n.id == P && n.leftId == some c) then 1 else 0)
        + (if (n.id == P && n.rightId == some c) then 1 else 0) := by
  rw [edgesFor1, if_pos hi, List.countP_append]
  have hsc : ∀ (a b : Int), ((some a == some b) : Bool) = (a == b) := fun a b => rfl
  have hnsc : ∀ (b : Int), ((none == some b) : Bool) = false := fun b => rfl
  congr 1
  · split
    next c' hx =>
        rw [truthy_some hx, List.countP_cons, List.countP_nil, hsc, Nat.zero_add]
    next hx =>
        rcases truthy_none hx with h0 | h0
        · rw [h0, hnsc]
          split
          · rw [List.countP_cons, List.countP_nil, Nat.zero_add, Bool.and_false]
            have hne : ((-(n.id * 10 + 1) == c) : Bool) = false := by
              rw [show ((-(n.id * 10 + 1) == c) : Bool) = decide (-(n.id * 10 + 1) = c) from rfl]
              rw [decide_eq_false_iff_not]
              omega
            show (if ((n.id == P && (-(n.id * 10 + 1) == c)) = true) then 1 else 0)
                = if ((false : Bool) = true) then 1 else 0
            rw [hne, Bool.and_false]
          · simp
        · exact absurd (hl 0 h0) (by omega)
  · split
    next c' hx =>
        rw [truthy_some hx, List.countP_cons, List.countP_nil, hsc, Nat.zero_add]
    next hx =>
        rcases truthy_none hx with h0 | h0
        · rw [h0, hnsc]
          split
          · rw [List.countP_cons, List.countP_nil, Nat.zero_add, Bool.and_false]
            have hne : ((-(n.id * 10 + 2) == c) : Bool) = false := by
              rw [show ((-(n.id * 10 + 2) == c) : Bool) = decide (-(n.id * 10 + 2) = c) from rfl]
              rw [decide_eq_false_iff_not]
              omega
            show (if ((n.id == P && (-(n.id * 10 + 2) == c)) = true) then 1 else 0)
                = if ((false : Bool) = true) then 1 else 0
            rw [hne, Bool.and_false]
          · simp
        · exact absurd (hr 0 h0) (by omega)

/-- Edge multiplicity of the first layout version, for a positive target
id: as for the second version, NIL placeholder entries and edges never
match. -/
theorem traverse1_count : ∀ (t : STree) (ns : List LayoutNode1) (depth : Nat) (lb rb : ℚ)
    (pid : Option Int) (il : Bool) (P c : Int),
    (∀ j ∈ snapIds t, 0 < j) → (∀ p, pid = some p → 0 < p) → 0 < c →
    (((traverse1 t depth lb rb pid il).map (edgesFor1 ns)).flatten).countP
        (fun (e : LEdge) => e.src == P && e.dst == c)
      = (snapList t).countP (fun x => x.1 == P && x.2.1 == some c)
        + (snapList t).countP (fun x => x.1 == P && x.2.2 == some c) := by
  intro t
  induction t with
  | null =>
      intro ns depth lb rb pid il P c _ hpid hc
      cases pid with
      | none => rfl
      | some p =>
          have hp := hpid p rfl
          have hent : edgesFor1 ns ⟨-(p * 10 + (if il then 1 else 2)), none, RB.Color.BLACK,
              (lb + rb) / 2, 50 + (depth : ℚ) * 60, some p, none, none⟩ = [] := by
            rw [edgesFor1, if_neg]
            cases il
            · show ¬(0 : Int) < -(p * 10 + 2)
              omega
            · show ¬(0 : Int) < -(p * 10 + 1)
              omega
          simp only [traverse1, List.map_cons, List.map_nil, List.flatten_cons,
            List.flatten_nil, hent, List.append_nil]
          rfl
  | node i v c' pid' l r ihl ihr =>
      intro ns depth lb rb pid il P c hpos hpid hc
      have hposl : ∀ j ∈ snapIds l, 0 < j := fun j hj =>
        hpos j (by rw [snapIds_node]; exact List.mem_cons_of_mem _ (List.mem_append_left _ hj))
      have hposr : ∀ j ∈ snapIds r, 0 < j := fun j hj =>
        hpos j (by rw [snapIds_node]; exact List.mem_cons_of_mem _ (List.mem_append_right _ hj))
      have hpi : ∀ p, (some i : Option Int) = some p → 0 < p := fun p hp =>
        Option.some.inj hp ▸ hpos i (by rw [snapIds_node]; exact List.mem_cons_self _ _)
      have hii : (0 : Int) < i := hpos i (by rw [snapIds_node]; exact List.mem_cons_self _ _)
      have hcl : ∀ j, childId l = some j → 0 < j := fun j hj => hposl j (childId_mem hj)
      have hcr : ∀ j, childId r = some j → 0 < j := fun j hj => hposr j (childId_mem hj)
      simp only [traverse1, List.map_cons, List.map_append, List.flatten_cons,
        List.flatten_append, List.countP_append, snapList, List.countP_cons]
      rw [ihl ns (depth + 1) lb _ (some i) true P c hposl hpi hc,
        ihr ns (depth + 1) _ rb (some i) false P c hposr hpi hc,
        edgesFor1_count ns _ P c hii hc hcl hcr]
      dsimp only
      omega

/-- C9 (amended): for every snapshot with duplicate-free positive node ids,
the second layout version emits exactly the parent-to-real-child edges, one
per pair; the first layout version also emits edges to synthetic NIL
placeholder ids `-(id*10 + 1)` / `-(id*10 + 2)` for absent children, but
still exactly one edge per parent-real-child pair. -/
theorem layout_edges_parent_child (t : STree) (w h : ℚ)
    (hnd : (snapIds t).Nodup) (hpos : ∀ i ∈ snapIds t, 0 < i) :
    edgesAreParentChild t (computeTreeLayout2 t w h).edges
      ∧ edgesAreParentChildOrNil t (computeTreeLayout1 t w h).edges := by
  cases t with
  | null =>
      refine ⟨⟨?_, ?_⟩, ⟨?_, ?_⟩⟩
      · intro e he; exact absurd he (List.not_mem_nil e)
      · intro pr hpr; exact absurd hpr (List.not_mem_nil pr)
      · intro e he; exact absurd he (List.not_mem_nil e)
      · intro pr hpr; exact absurd hpr (List.not_mem_nil pr)
  | node i v c pid l r =>
      have hE2 : (computeTreeLayout2 (.node i v c pid l r) w h).edges
          = (traverse2 (h / ((getDepth (.node i v c pid l r) + 1 : Nat) : ℚ))
              (w / ((countNodes2 (.node i v c pid l r) + 1 : Nat) : ℚ))
              (.node i v c pid l r) 0 0).2.2 := rfl
      have hE1 : (computeTreeLayout1 (.node i v c pid l r) w h).edges
          = ((traverse1 (.node i v c pid l r) 0 40 (w - 40) none false).map
              (edgesFor1 (traverse1 (.node i v c pid l r) 0 40 (w - 40) none false))).flatten :=
        rfl
      refine ⟨⟨?_, ?_⟩, ⟨?_, ?_⟩⟩
      · intro e he
        rw [hE2] at he
        exact traverse2_mem _ _ (.node i v c pid l r) 0 0 e he
      · intro pr hpr c₀ hc₀
        rw [hE2, traverse2_count]
        exact snap_pair_count _ hnd pr hpr c₀ hc₀
      · intro e he
        rw [hE1, List.mem_flatten] at he
        obtain ⟨es, hes, hee⟩ := he
        rw [List.mem_map] at hes
        obtain ⟨n, hn, rfl⟩ := hes
        by_cases hid : 0 < n.id
        · have hmem := traverse1_mem (.node i v c pid l r) 0 40 (w - 40) none false hpos
            (fun p hp => Option.noConfusion hp) n hn
          rcases hmem with htr | hneg
          · refine ⟨(n.id, n.leftId, n.rightId), htr, ?_⟩
            rw [edgesFor1, if_pos hid] at hee
            rcases List.mem_append.mp hee with hL | hR
            · split at hL
              next c' hx =>
                  have he2 : e = ⟨n.id, c'⟩ := List.mem_singleton.mp hL
                  subst he2
                  exact ⟨rfl, Or.inl (truthy_some hx)⟩
              next hx =>
                  split at hL
                  · have he2 : e = ⟨n.id, -(n.id * 10 + 1)⟩ := List.mem_singleton.mp hL
                    subst he2
                    rcases truthy_none hx with h0 | h0
                    · exact ⟨rfl, Or.inr (Or.inr (Or.inl ⟨h0, rfl⟩))⟩
                    · have h00 : (0 : Int) ∈ snapIds (.node i v c pid l r) :=
                        child_mem_snapIds _ _ htr 0 (Or.inl h0)
                      exact absurd (hpos 0 h00) (by omega)
                  · exact absurd hL (List.not_mem_nil e)
            · split at hR
              next c' hx =>
                  have he2 : e = ⟨n.id, c'⟩ := List.mem_singleton.mp hR
                  subst he2
                  exact ⟨rfl, Or.inr (Or.inl (truthy_some hx))⟩
              next hx =>
                  split at hR
                  · have he2 : e = ⟨n.id, -(n.id * 10 + 2)⟩ := List.mem_singleton.mp hR
                    subst he2
                    rcases truthy_none hx with h0 | h0
                    · exact ⟨rfl, Or.inr (Or.inr (Or.inr ⟨h0, rfl⟩))⟩
                    · have h00 : (0 : Int) ∈ snapIds (.node i v c pid l r) :=
                        child_mem_snapIds _ _ htr 0 (Or.inr h0)
                      exact absurd (hpos 0 h00) (by omega)
                  · exact absurd hR (List.not_mem_nil e)
          · omega
        · rw [edgesFor1, if_neg hid] at hee
          exact absurd hee (List.not_mem_nil e)
      · intro pr hpr c₀ hc₀
        have hc0 : (0 : Int) < c₀ := hpos c₀ (child_mem_snapIds _ pr hpr c₀ hc₀)
        rw [hE1, traverse1_count (.node i v c pid l r) _ 0 40 (w - 40) none false pr.1 c₀ hpos
          (fun p hp => Option.noConfusion hp) hc0]
        exact snap_pair_count _ hnd pr hpr c₀ hc₀

/-- C9 counterexample: on the single-node snapshot, the first layout
version (the one the application renders) emits the edge `1 -> -11` to a
synthetic NIL placeholder, whose target is not the id of any child node, so
its edges are not all parent-to-child edges as claimed. -/
theorem layout1_edge_to_nil_counterexample :
    ¬ edgesAreParentChild (STree.node 1 5 RB.Color.BLACK none STree.null STree.null)
        (computeTreeLayout1 (STree.node 1 5 RB.Color.BLACK none STree.null STree.null)
          1000 500).edges := by
  intro hp
  have hmem : (⟨1, -11⟩ : LEdge)
      ∈ (computeTreeLayout1 (STree.node 1 5 RB.Color.BLACK none STree.null STree.null)
          1000 500).edges := by decide
  obtain ⟨pr, hpr, h1, h2⟩ := hp.1 _ hmem
  have hpr2 : pr = (1, none, none) := by
    have hs : snapList (STree.node 1 5 RB.Color.BLACK none STree.null STree.null)
        = [((1 : Int), none, none)] := rfl
    rw [hs, List.mem_singleton] at hpr
    exact hpr
  rcases h2 with h2 | h2 <;> (rw [hpr2] at h2; exact Option.noConfusion h2)

/-- Witness for the amended C9 at a concrete input: a two-node snapshot
with ids 1 and 2. -/
theorem layout_edges_parent_child_witness :
    (snapIds (STree.node 1 10 RB.Color.BLACK none
        (STree.node 2 5 RB.Color.RED (some 1) STree.null STree.null) STree.null)).Nodup
      ∧ (∀ i ∈ snapIds (STree.node 1 10 RB.Color.BLACK none
          (STree.node 2 5 RB.Color.RED (some 1) STree.null STree.null) STree.null), 0 < i)
      ∧ (edgesAreParentChild (STree.node 1 10 RB.Color.BLACK none
            (STree.node 2 5 RB.Color.RED (some 1) STree.null STree.null) STree.null)
          (computeTreeLayout2 (STree.node 1 10 RB.Color.BLACK none
            (STree.node 2 5 RB.Color.RED (some 1) STree.null STree.null) STree.null)
            1000 500).edges
        ∧ edgesAreParentChildOrNil (STree.node 1 10 RB.Color.BLACK none
            (STree.node 2 5 RB.Color.RED (some 1) STree.null STree.null) STree.null)
          (computeTreeLayout1 (STree.node 1 10 RB.Color.BLACK none
            (STree.node 2 5 RB.Color.RED (some 1) STree.null STree.null) STree.null)
            1000 500).edges) :=
  ⟨by decide, by decide,
    layout_edges_parent_child (STree.node 1 10 RB.Color.BLACK none
      (STree.node 2 5 RB.Color.RED (some 1) STree.null STree.null) STree.null)
      1000 500 (by decide) (by decide)⟩

end TreeLayout
